import Mathlib

/-!
Verification of the ingredient-normalization / recipe-ranking / caching core
of the "What's in My Fridge" application (src/ranker.py, src/cache.py,
src/nlp_simple.py), as a shallow embedding in Lean 4.

Numbers: Python floats are modelled by exact rationals (ℚ); all the constants
appearing in the source (0.1, 0.2, 0.05, 0.6, 0.4, 24*60*60, …) are exactly
representable, and every claim below is about the algebraic structure of the
computations, not about float rounding.

Python dicts are modelled by association lists in insertion order with the
usual dict operations (in-place overwrite on existing key, append on new key).
A missing optional dict key is modelled by `Option` (or by `[]` for list
fields, matching the truthiness tests of the source).
-/

namespace Fridge

/-- ASCII lowercasing of one character, modelling Python `str.lower()` on the
ASCII inputs that the pipeline handles. -/
def charToLower (c : Char) : Char :=
  if 'A' ≤ c ∧ c ≤ 'Z' then Char.ofNat (c.toNat + 32) else c

/-- The whitespace characters stripped by Python `str.strip()` (ASCII range). -/
def isPySpace (c : Char) : Bool :=
  c = ' ' || c = '\t' || c = '\n' || c = '\r' || c = '\x0b' || c = '\x0c'

/-- Strip leading and trailing whitespace from a character list,
modelling Python `str.strip()`. -/
def trimChars (l : List Char) : List Char :=
  ((l.dropWhile isPySpace).reverse.dropWhile isPySpace).reverse

/-- Python `s.lower()` on strings. -/
def pyLower (s : String) : String :=
  String.mk (s.data.map charToLower)

/-- Python `s.strip()` on strings. -/
def pyStrip (s : String) : String :=
  String.mk (trimChars s.data)

/-- Python's builtin `min(a, b)` on two numbers, written with an `if` so that
the kernel can evaluate it on concrete rationals. -/
def pyMin (a b : ℚ) : ℚ := if b < a then b else a

/-- Python's builtin `max(a, b)` on two numbers. -/
def pyMax (a b : ℚ) : ℚ := if a < b then b else a

/-- `pyMin` agrees with Mathlib's `min`. -/
theorem pyMin_eq (a b : ℚ) : pyMin a b = min a b := by
  rw [pyMin]
  rcases le_or_lt a b with h | h
  · rw [if_neg (not_lt.mpr h), min_eq_left h]
  · rw [if_pos h, min_eq_right (le_of_lt h)]

/-- `pyMax` agrees with Mathlib's `max`. -/
theorem pyMax_eq (a b : ℚ) : pyMax a b = max a b := by
  rw [pyMax]
  rcases le_or_lt b a with h | h
  · rw [if_neg (not_lt.mpr h), max_eq_left h]
  · rw [if_pos h, max_eq_right (le_of_lt h)]

/-- One entry of a recipe's `usedIngredients` / `missedIngredients` lists:
the ranking code only ever reads `ing.get('name', '')`. -/
structure Ingredient where
  name : String
deriving Repr, DecidableEq

/-- The recipe dictionary fields read by `ranker.py`.  `usedIngredients`,
`missedIngredients`, `dishTypes`, `diets` and `cuisines` are list fields whose
absence is modelled by `[]` (the source only tests them for truthiness or
iterates over them, so an absent key and an empty list are indistinguishable);
the scalar fields read with `recipe.get(key)` / `recipe.get(key, default)` are
modelled by `Option`. -/
structure Recipe where
  title : Option String
  usedIngredients : List Ingredient
  missedIngredients : List Ingredient
  healthScore : Option ℚ
  readyInMinutes : Option ℚ
  summary : Option String
  cuisine : Option String
  dishTypes : List String
  diets : List String
  cuisines : List String
deriving Repr, DecidableEq

/-- `RecipeRanker._calculate_base_score` (src/ranker.py lines 100-126):
returns 0.0 immediately when `usedIngredients` is falsy (absent or empty),
otherwise clamps `ingredient_score - missing_penalty + health_bonus +
time_bonus` to [0, 1]. -/
def calculateBaseScore (recipe : Recipe) (userIngredients : List String) : ℚ :=
  if recipe.usedIngredients = [] then 0
  else
    let used := recipe.usedIngredients.map (fun i => pyLower i.name)
    let missed := recipe.missedIngredients.map (fun i => pyLower i.name)
    let ingredientScore : ℚ := (used.length : ℚ) / (max userIngredients.length 1 : ℕ)
    let missingPenalty : ℚ := (missed.length : ℚ) * (1/10)
    let healthBonus : ℚ := recipe.healthScore.getD 50 / 100 * (2/10)
    let readyTime : ℚ := recipe.readyInMinutes.getD 60
    let timeBonus : ℚ := if readyTime ≤ 30 then 2/10 else if readyTime ≤ 45 then 1/10 else 0
    let baseScore := ingredientScore - missingPenalty + healthBonus + timeBonus
    pyMax 0 (pyMin 1 baseScore)

/-- The base-score formula exactly as the specification states it
(spec §4.3 / claim C1): `clamp(ingredient_score - missing_penalty +
health_bonus + time_bonus, 0, 1)` with
`ingredient_score = |usedIngredients| / max(|user_ingredients|, 1)`,
`missing_penalty = 0.1 * |missedIngredients|`,
`health_bonus = (healthScore default 50) / 100 * 0.2` and the stated time
bonus.  This definition follows the specification's words, to be compared
with `calculateBaseScore`, which follows the source. -/
def specBaseScore (recipe : Recipe) (userIngredients : List String) : ℚ :=
  let ingredientScore : ℚ := (recipe.usedIngredients.length : ℚ) / (max userIngredients.length 1 : ℕ)
  let missingPenalty : ℚ := (1/10) * (recipe.missedIngredients.length : ℚ)
  let healthBonus : ℚ := recipe.healthScore.getD 50 / 100 * (2/10)
  let readyTime : ℚ := recipe.readyInMinutes.getD 60
  let timeBonus : ℚ := if readyTime ≤ 30 then 2/10 else if readyTime ≤ 45 then 1/10 else 0
  pyMax 0 (pyMin 1 (ingredientScore - missingPenalty + healthBonus + timeBonus))

/-- Auxiliary: `(l.dropWhile p).length ≤ l.length`. -/
theorem length_dropWhile_le' {α : Type} (p : α → Bool) (l : List α) :
    (l.dropWhile p).length ≤ l.length := by
  induction l with
  | nil => simp
  | cons a l ih =>
    by_cases h : p a
    · rw [List.dropWhile_cons_of_pos h]; exact Nat.le_succ_of_le ih
    · rw [List.dropWhile_cons_of_neg h]

/-- Strip HTML tags from a summary, modelling `re.sub('<.*?>', '', summary)`
(src/ranker.py line 83): a non-greedy match removes a `<`, the following run of
characters that are neither `>` nor a newline (`.` does not match `\n`), and
the closing `>`; a `<` with no such closing `>` is kept. -/
def stripHtmlTags (l : List Char) : List Char :=
  match l with
  | [] => []
  | c :: cs =>
    let tail := cs.dropWhile (fun d => !(d = '>' || d = '\n'))
    if c = '<' ∧ tail.head? = some '>' then
      stripHtmlTags (tail.drop 1)
    else c :: stripHtmlTags cs
termination_by l.length
decreasing_by
  · have h1 : (cs.dropWhile (fun d => !(d = '>' || d = '\n'))).length ≤ cs.length :=
      length_dropWhile_le' _ _
    simp only [List.length_drop, List.length_cons]
    omega
  · simp only [List.length_cons]; omega

/-- `RecipeRanker._extract_recipe_features` (src/ranker.py lines 66-98):
concatenates the truthy text fields and lowercases the result. -/
def extractRecipeFeatures (recipe : Recipe) : String :=
  let features : List String :=
    (if recipe.title.getD "" ≠ "" then [recipe.title.getD ""] else [])
    ++ recipe.usedIngredients.map (fun i => i.name)
    ++ (if recipe.summary.getD "" ≠ "" then
          [String.mk (stripHtmlTags (recipe.summary.getD "").data)] else [])
    ++ (if recipe.cuisine.getD "" ≠ "" then [recipe.cuisine.getD ""] else [])
    ++ recipe.dishTypes
    ++ recipe.diets
  pyLower (String.intercalate " " features)

/-- The user-preference dictionary fields read by
`RecipeRanker._apply_rule_based_ranking`: boolean flags are truthiness tests
of `preferences.get(...)`, `max_prep_time` is read with default 60. -/
structure Preferences where
  vegetarian : Bool
  vegan : Bool
  gluten_free : Bool
  max_prep_time : Option ℚ
  preferred_cuisines : List String
deriving Repr, DecidableEq

/-- A recipe dict after `rank_recipes` has set `recipe['base_score']`. -/
structure ScoredRecipe where
  recipe : Recipe
  base_score : ℚ
deriving Repr, DecidableEq

/-- A recipe dict after ranking has set `final_score` (and possibly
`ml_score`). -/
structure RankedRecipe where
  recipe : Recipe
  base_score : ℚ
  ml_score : Option ℚ
  final_score : ℚ
deriving Repr, DecidableEq

/-- The comparison used by
`sorted(recipes, key=lambda r: r.get('final_score', 0), reverse=True)`:
descending by `final_score`. -/
def finalGe (a b : RankedRecipe) : Prop := b.final_score ≤ a.final_score

instance : DecidableRel finalGe := fun a b => inferInstanceAs (Decidable (_ ≤ _))

/-- Python's stable `sorted(..., reverse=True)` on `final_score`, modelled by
a stable insertion sort with the descending relation. -/
def sortByScore (l : List RankedRecipe) : List RankedRecipe :=
  List.insertionSort finalGe l

/-- `RecipeRanker._is_vegetarian` (src/ranker.py lines 243-246). -/
def isVegetarian (r : Recipe) : Bool :=
  let diets := r.diets.map pyLower
  diets.contains "vegetarian" || diets.contains "vegan"

/-- `RecipeRanker._is_vegan` (src/ranker.py lines 248-251). -/
def isVegan (r : Recipe) : Bool := (r.diets.map pyLower).contains "vegan"

/-- `RecipeRanker._is_gluten_free` (src/ranker.py lines 253-256). -/
def isGlutenFree (r : Recipe) : Bool :=
  let diets := r.diets.map pyLower
  diets.contains "gluten free" || diets.contains "gluten-free"

/-- The per-recipe body of `RecipeRanker._apply_rule_based_ranking`
(src/ranker.py lines 209-238): preference bonuses added to `base_score`,
then `final_score = min(1.0, score)`. -/
def adjustByPreferences (prefs : Preferences) (s : ScoredRecipe) : RankedRecipe :=
  let score0 := s.base_score
  let score1 := if prefs.vegetarian && isVegetarian s.recipe then score0 + 1/10 else score0
  let score2 := if prefs.vegan && isVegan s.recipe then score1 + 1/10 else score1
  let score3 := if prefs.gluten_free && isGlutenFree s.recipe then score2 + 1/10 else score2
  let score4 := if s.recipe.readyInMinutes.getD 60 ≤ prefs.max_prep_time.getD 60
                then score3 + 5/100 else score3
  let score5 := if s.recipe.cuisines.any (fun c => prefs.preferred_cuisines.contains c)
                then score4 + 1/10 else score4
  { recipe := s.recipe, base_score := s.base_score, ml_score := none,
    final_score := pyMin 1 score5 }

/-- `RecipeRanker._apply_rule_based_ranking` (src/ranker.py lines 209-241). -/
def applyRuleBasedRanking (prefs : Preferences) (scored : List ScoredRecipe) :
    List RankedRecipe :=
  sortByScore (scored.map (adjustByPreferences prefs))

/-- The state of the loaded scikit-learn model pair: `vocabularyFitted`
models `hasattr(self.vectorizer, 'vocabulary_')`, `coefFitted` models
`hasattr(self.classifier, 'coef_')`; `transform` and `predictProba` model
`self.vectorizer.transform` and `self.classifier.predict_proba(X)[:, 1]`,
which may raise — modelled by `Except`. -/
structure MLState where
  vocabularyFitted : Bool
  coefFitted : Bool
  transform : List String → Except String (List (List ℚ))
  predictProba : List (List ℚ) → Except String (List ℚ)

/-- One record returned by `get_user_feedback`; the ranking path only uses
the number of records. -/
structure FeedbackRecord where
  recipe : Recipe
  rating : String
deriving Repr, DecidableEq

/-- `RecipeRanker._apply_ml_ranking` (src/ranker.py lines 161-207).
The `feedback` argument is the outcome of the `get_user_feedback(user_id)`
call: a raised exception there propagates out of `_apply_ml_ranking`
(`.error`), while any exception inside the inner `try` (transform or
prediction) is caught and yields `None` (`.ok none`), as does each explicit
`return None`.  Recipes always carry `base_score` here, because
`rank_recipes` sets it before calling (so `recipe.get('base_score', 0.5)`
never falls back to its default). -/
def applyMLRankingE (ml : MLState) (feedback : Except String (List FeedbackRecord))
    (recipes : List ScoredRecipe) : Except String (Option (List RankedRecipe)) :=
  match feedback with
  | .error e => .error e
  | .ok feedbackData =>
    if feedbackData.length < 5 then .ok none
    else
      let recipeFeatures := recipes.map (fun s => extractRecipeFeatures s.recipe)
      if recipeFeatures = [] then .ok none
      else
        if ml.vocabularyFitted then
          match ml.transform recipeFeatures with
          | .error _ => .ok none
          | .ok X =>
            if ml.coefFitted then
              match ml.predictProba X with
              | .error _ => .ok none
              | .ok mlScores =>
                let combined := recipes.enum.map (fun p =>
                  let mlScore := mlScores.getD p.1 (1/2)
                  ({ recipe := p.2.recipe, base_score := p.2.base_score,
                     ml_score := some mlScore,
                     final_score := (6/10) * p.2.base_score + (4/10) * mlScore } : RankedRecipe))
                .ok (some (sortByScore combined))
            else .ok none
        else .ok none

/-- The `recipe['base_score'] = self._calculate_base_score(...)` loop of
`rank_recipes` (src/ranker.py lines 147-148). -/
def scoreRecipes (recipes : List Recipe) (userIngredients : List String) :
    List ScoredRecipe :=
  recipes.map (fun r => { recipe := r, base_score := calculateBaseScore r userIngredients })

/-- `RecipeRanker.rank_recipes` (src/ranker.py lines 128-159): empty input is
returned as is; otherwise base scores are attached, ML ranking is attempted,
and any exception or falsy ML result (None or empty list, per
`if ml_ranked:`) falls back to the rule-based ranking.  The function is total:
no ML failure escapes it. -/
def rankRecipes (ml : MLState) (feedback : Except String (List FeedbackRecord))
    (prefs : Preferences) (recipes : List Recipe) (userIngredients : List String) :
    List RankedRecipe :=
  if recipes = [] then []
  else
    let scored := scoreRecipes recipes userIngredients
    match applyMLRankingE ml feedback scored with
    | .ok (some ranked) => if ranked = [] then applyRuleBasedRanking prefs scored else ranked
    | .ok none => applyRuleBasedRanking prefs scored
    | .error _ => applyRuleBasedRanking prefs scored

/-- Auxiliary: the base score is always nonnegative. -/
theorem calculateBaseScore_nonneg (recipe : Recipe) (ui : List String) :
    0 ≤ calculateBaseScore recipe ui := by
  rw [calculateBaseScore]
  split
  · exact le_refl 0
  · rw [pyMax_eq]; exact le_max_left _ _

/-- A concrete recipe with an empty `usedIngredients` list but a perfect
health score and a fast preparation time. -/
def recipeNoUsed : Recipe :=
  { title := some "mystery soup", usedIngredients := [],
    missedIngredients := [⟨"salt"⟩], healthScore := some 100,
    readyInMinutes := some 10, summary := none, cuisine := none,
    dishTypes := [], diets := [], cuisines := [] }

/-- C1 as stated is false on the code: for a recipe whose `usedIngredients`
is empty, `_calculate_base_score` returns 0.0 immediately, while the claimed
clamp formula yields 0 − 0.1 + 0.2 + 0.2 = 0.3 here. -/
theorem base_score_formula_counterexample :
    calculateBaseScore recipeNoUsed ["egg"] = 0 ∧
    specBaseScore recipeNoUsed ["egg"] = 3/10 ∧
    calculateBaseScore recipeNoUsed ["egg"] ≠ specBaseScore recipeNoUsed ["egg"] := by
  refine ⟨?_, ?_, ?_⟩
  · simp [calculateBaseScore, recipeNoUsed]
  · norm_num [specBaseScore, recipeNoUsed, pyMin, pyMax]
  · norm_num [calculateBaseScore, specBaseScore, recipeNoUsed, pyMin, pyMax]

/-- C1 (amended): for every recipe whose `usedIngredients` list is nonempty,
and every list of user ingredients, the base score computed by
`_calculate_base_score` equals the claimed formula
`clamp(ingredient_score - missing_penalty + health_bonus + time_bonus, 0, 1)`. -/
theorem base_score_formula (recipe : Recipe) (userIngredients : List String)
    (h : recipe.usedIngredients ≠ []) :
    calculateBaseScore recipe userIngredients = specBaseScore recipe userIngredients := by
  rw [calculateBaseScore, specBaseScore, if_neg h]
  simp only [List.length_map]
  ring_nf

/-- A concrete recipe with two used ingredients. -/
def recipeTwoUsed : Recipe :=
  { title := some "omelette", usedIngredients := [⟨"Egg"⟩, ⟨"Spinach"⟩],
    missedIngredients := [⟨"salt"⟩], healthScore := some 80,
    readyInMinutes := some 10, summary := none, cuisine := none,
    dishTypes := [], diets := [], cuisines := [] }

/-- Witness for `base_score_formula` at a concrete recipe. -/
theorem base_score_formula_witness :
    calculateBaseScore recipeTwoUsed ["egg", "spinach"] =
      specBaseScore recipeTwoUsed ["egg", "spinach"] :=
  base_score_formula recipeTwoUsed ["egg", "spinach"] (by decide)

/-- C10: for every recipe whose `usedIngredients` field is absent or empty
(both modelled by `[]`, matching the `if not recipe.get('usedIngredients')`
truthiness test) and every user ingredient list, the base score is exactly
0.0, regardless of `healthScore`, `readyInMinutes` or `missedIngredients`. -/
theorem base_score_zero_of_no_used (recipe : Recipe) (userIngredients : List String)
    (h : recipe.usedIngredients = []) :
    calculateBaseScore recipe userIngredients = 0 := by
  rw [calculateBaseScore, if_pos h]

/-- Witness for `base_score_zero_of_no_used`: a recipe with a missed
ingredient, full health score and a 10-minute time still scores 0. -/
theorem base_score_zero_of_no_used_witness :
    calculateBaseScore recipeNoUsed ["egg"] = 0 :=
  base_score_zero_of_no_used recipeNoUsed ["egg"] (by decide)

/-- C9: the base score is monotonically non-decreasing in the number of
`usedIngredients` (holding the other fields the score reads, and the user
ingredient list, fixed), and monotonically non-increasing in the number of
`missedIngredients` (holding the other inputs fixed). -/
theorem base_score_monotone :
    (∀ (r1 r2 : Recipe) (ui : List String),
      r1.missedIngredients = r2.missedIngredients →
      r1.healthScore = r2.healthScore →
      r1.readyInMinutes = r2.readyInMinutes →
      r1.usedIngredients.length ≤ r2.usedIngredients.length →
      calculateBaseScore r1 ui ≤ calculateBaseScore r2 ui) ∧
    (∀ (r1 r2 : Recipe) (ui : List String),
      r1.usedIngredients = r2.usedIngredients →
      r1.healthScore = r2.healthScore →
      r1.readyInMinutes = r2.readyInMinutes →
      r1.missedIngredients.length ≤ r2.missedIngredients.length →
      calculateBaseScore r2 ui ≤ calculateBaseScore r1 ui) := by
  have hDpos : ∀ ui : List String, (0 : ℚ) < ((max ui.length 1 : ℕ) : ℚ) := by
    intro ui
    have h1 : (1 : ℕ) ≤ max ui.length 1 := le_max_right _ _
    exact_mod_cast Nat.lt_of_lt_of_le Nat.zero_lt_one h1
  constructor
  · intro r1 r2 ui hm hh hr hlen
    by_cases h1 : r1.usedIngredients = []
    · rw [calculateBaseScore, if_pos h1]
      exact calculateBaseScore_nonneg r2 ui
    · have h2 : r2.usedIngredients ≠ [] := by
        intro he
        rw [he, List.length_nil, Nat.le_zero, List.length_eq_zero] at hlen
        exact h1 hlen
      rw [calculateBaseScore, calculateBaseScore, if_neg h1, if_neg h2]
      simp only [List.length_map, pyMax_eq, pyMin_eq]
      rw [hm, hh, hr]
      refine max_le_max (le_refl 0) (min_le_min (le_refl 1) ?_)
      have hnum : ((r1.usedIngredients.length : ℕ) : ℚ) ≤ ((r2.usedIngredients.length : ℕ) : ℚ) := by
        exact_mod_cast hlen
      have hdiv : ((r1.usedIngredients.length : ℕ) : ℚ) / ((max ui.length 1 : ℕ) : ℚ) ≤
          ((r2.usedIngredients.length : ℕ) : ℚ) / ((max ui.length 1 : ℕ) : ℚ) :=
        div_le_div_of_nonneg_right hnum (le_of_lt (hDpos ui))
      linarith [hdiv]
  · intro r1 r2 ui hu hh hr hlen
    by_cases h1 : r1.usedIngredients = []
    · rw [calculateBaseScore, calculateBaseScore, if_pos h1, if_pos (hu ▸ h1)]
    · have h2 : r2.usedIngredients ≠ [] := fun he => h1 (hu ▸ he)
      rw [calculateBaseScore, calculateBaseScore, if_neg h1, if_neg h2]
      simp only [List.length_map, pyMax_eq, pyMin_eq]
      rw [hu, hh, hr]
      refine max_le_max (le_refl 0) (min_le_min (le_refl 1) ?_)
      have hnum : ((r1.missedIngredients.length : ℕ) : ℚ) ≤ ((r2.missedIngredients.length : ℕ) : ℚ) := by
        exact_mod_cast hlen
      have hpen : ((r1.missedIngredients.length : ℕ) : ℚ) * (1/10) ≤
          ((r2.missedIngredients.length : ℕ) : ℚ) * (1/10) := by
        apply mul_le_mul_of_nonneg_right hnum (by norm_num)
      linarith [hpen]

/-- Auxiliary: when the TF-IDF transform or the prediction raises, the inner
`try` of `_apply_ml_ranking` catches it and the function returns `None`
(so do the `hasattr` guards and the minimum-feedback check). -/
theorem applyMLRankingE_none_of_error (ml : MLState) (data : List FeedbackRecord)
    (rs : List ScoredRecipe)
    (h : (∃ e, ml.transform (rs.map fun s => extractRecipeFeatures s.recipe) = .error e) ∨
         (∀ X, ml.transform (rs.map fun s => extractRecipeFeatures s.recipe) = .ok X →
            ∃ e, ml.predictProba X = .error e)) :
    applyMLRankingE ml (.ok data) rs = .ok none := by
  simp only [applyMLRankingE]
  by_cases h5 : data.length < 5
  · simp [h5]
  · simp only [if_neg h5]
    by_cases hempty : rs.map (fun s => extractRecipeFeatures s.recipe) = []
    · simp [hempty]
    · simp only [if_neg hempty]
      by_cases hv : ml.vocabularyFitted
      · simp only [if_pos hv]
        cases htr : ml.transform (rs.map fun s => extractRecipeFeatures s.recipe) with
        | error e => simp
        | ok X =>
          by_cases hc : ml.coefFitted
          · simp only [if_pos hc]
            rcases h with ⟨e, he⟩ | hp
            · rw [htr] at he; cases he
            · obtain ⟨e, he⟩ := hp X htr
              rw [he]
          · simp [hc]
      · simp [hv]

/-- C2: for every recipe list and every user with fewer than 5 stored
feedback records, `rank_recipes` takes the rule-based ranking path even when
a fitted model exists (the `MLState` is universally quantified, so in
particular a fitted one), and `_apply_ml_ranking` returns `None` before
touching the model. -/
theorem rank_recipes_rule_based_when_few_feedback
    (ml : MLState) (feedbackData : List FeedbackRecord) (prefs : Preferences)
    (recipes : List Recipe) (userIngredients : List String)
    (h : feedbackData.length < 5) :
    rankRecipes ml (.ok feedbackData) prefs recipes userIngredients =
      applyRuleBasedRanking prefs (scoreRecipes recipes userIngredients) ∧
    applyMLRankingE ml (.ok feedbackData) (scoreRecipes recipes userIngredients) = .ok none := by
  have hml : applyMLRankingE ml (.ok feedbackData) (scoreRecipes recipes userIngredients)
      = .ok none := by
    simp [applyMLRankingE, h]
  refine ⟨?_, hml⟩
  by_cases hr : recipes = []
  · subst hr
    simp [rankRecipes, applyRuleBasedRanking, scoreRecipes, sortByScore, List.insertionSort]
  · simp [rankRecipes, if_neg hr, hml]

/-- A feedback record as stored by the feedback database. -/
def sampleFeedback : FeedbackRecord := { recipe := recipeTwoUsed, rating := "like" }

/-- A fully fitted model whose transform and prediction both succeed. -/
def fittedMLState : MLState :=
  { vocabularyFitted := true, coefFitted := true,
    transform := fun fs => .ok (fs.map (fun _ => [1])),
    predictProba := fun X => .ok (X.map (fun _ => 9/10)) }

/-- User preferences with no flags set, as stored for a fresh user. -/
def defaultPrefs : Preferences :=
  { vegetarian := false, vegan := false, gluten_free := false,
    max_prep_time := none, preferred_cuisines := [] }

/-- Witness for `rank_recipes_rule_based_when_few_feedback`: one stored
feedback record and a fitted model still yield the rule-based ranking. -/
theorem rank_recipes_rule_based_when_few_feedback_witness :
    rankRecipes fittedMLState (.ok [sampleFeedback]) defaultPrefs [recipeTwoUsed] ["egg"] =
      applyRuleBasedRanking defaultPrefs (scoreRecipes [recipeTwoUsed] ["egg"]) ∧
    applyMLRankingE fittedMLState (.ok [sampleFeedback])
        (scoreRecipes [recipeTwoUsed] ["egg"]) = .ok none :=
  rank_recipes_rule_based_when_few_feedback fittedMLState [sampleFeedback] defaultPrefs
    [recipeTwoUsed] ["egg"] (by decide)

/-- C3: `rank_recipes` never lets an ML failure escape (in the embedding it is
a total function into ranked lists, with every ML error an `Except` value):
whenever the feedback fetch raises, the feature transform raises, or the
prediction raises, the call returns exactly the rule-based ranking result. -/
theorem rank_recipes_ml_failure_rule_based
    (ml : MLState) (feedback : Except String (List FeedbackRecord)) (prefs : Preferences)
    (recipes : List Recipe) (userIngredients : List String)
    (h : (∃ e, feedback = .error e) ∨
         (∃ e, ml.transform ((scoreRecipes recipes userIngredients).map
             (fun s => extractRecipeFeatures s.recipe)) = .error e) ∨
         (∀ X, ml.transform ((scoreRecipes recipes userIngredients).map
             (fun s => extractRecipeFeatures s.recipe)) = .ok X →
            ∃ e, ml.predictProba X = .error e)) :
    rankRecipes ml feedback prefs recipes userIngredients =
      applyRuleBasedRanking prefs (scoreRecipes recipes userIngredients) := by
  by_cases hr : recipes = []
  · subst hr
    simp [rankRecipes, applyRuleBasedRanking, scoreRecipes, sortByScore, List.insertionSort]
  · have hml : applyMLRankingE ml feedback (scoreRecipes recipes userIngredients) = .ok none ∨
        ∃ e, applyMLRankingE ml feedback (scoreRecipes recipes userIngredients) = .error e := by
      cases feedback with
      | error e => exact Or.inr ⟨e, by simp [applyMLRankingE]⟩
      | ok data =>
        rcases h with ⟨e, hfe⟩ | h2 | h3
        · simp at hfe
        · exact Or.inl (applyMLRankingE_none_of_error ml data _ (Or.inl h2))
        · exact Or.inl (applyMLRankingE_none_of_error ml data _ (Or.inr h3))
    rcases hml with hml | ⟨e, hml⟩ <;>
      simp [rankRecipes, if_neg hr, hml]

/-- A model whose fitted vectorizer raises on transform. -/
def failingMLState : MLState :=
  { vocabularyFitted := true, coefFitted := true,
    transform := fun _ => .error "transform failed",
    predictProba := fun X => .ok (X.map (fun _ => 9/10)) }

/-- Witness for `rank_recipes_ml_failure_rule_based`: with 5 feedback records
(so the ML path is genuinely attempted) and a transform that raises, the call
still returns the rule-based result. -/
theorem rank_recipes_ml_failure_rule_based_witness :
    rankRecipes failingMLState
        (.ok [sampleFeedback, sampleFeedback, sampleFeedback, sampleFeedback, sampleFeedback])
        defaultPrefs [recipeTwoUsed] ["egg"] =
      applyRuleBasedRanking defaultPrefs (scoreRecipes [recipeTwoUsed] ["egg"]) :=
  rank_recipes_ml_failure_rule_based failingMLState
    (.ok [sampleFeedback, sampleFeedback, sampleFeedback, sampleFeedback, sampleFeedback])
    defaultPrefs [recipeTwoUsed] ["egg"]
    (Or.inr (Or.inl ⟨"transform failed", rfl⟩))

/-! ## Cache (src/cache.py)

Python dicts are modelled as association lists in insertion order:
`d[k] = v` overwrites in place when the key is present and appends otherwise,
`d.pop(k, None)` removes the binding, `k in d` / `d[k]` are membership and
lookup.  `time.time()` is passed in explicitly as `now` (one reading per
call, as the claims are per-call properties). -/

/-- Python `d[k] = v`: overwrite in place, else append. -/
def dictInsert {β : Type} (l : List (String × β)) (k : String) (v : β) :
    List (String × β) :=
  if l.any (fun p => p.1 == k) then
    l.map (fun p => if p.1 == k then (k, v) else p)
  else l ++ [(k, v)]

/-- Python `d[k]` / `d.get(k)`: first binding for the key. -/
def dictGet {β : Type} (l : List (String × β)) (k : String) : Option β :=
  (l.find? (fun p => p.1 == k)).map (fun p => p.2)

/-- Python `k in d`. -/
def dictHasKey {β : Type} (l : List (String × β)) (k : String) : Bool :=
  l.any (fun p => p.1 == k)

/-- A sequence of `d.pop(key, None)` calls, one per key in `ks`
(`for key in ks: d.pop(key, None)`): removes every binding whose key occurs
in `ks`. -/
def popKeys {β : Type} (l : List (String × β)) (ks : List String) :
    List (String × β) :=
  l.filter (fun p => !(ks.contains p.1))

/-- The per-key metadata dict stored in `self.metadata[cache_key]`
(src/cache.py lines 144-149). -/
structure CacheMeta where
  timestamp : ℚ
  last_accessed : ℚ
  access_count : ℕ
  recipe_count : ℕ
deriving Repr, DecidableEq

/-- The mutable state of a `RecipeCache`: the recipe store `self.cache` and
the metadata store `self.metadata` (the on-disk persistence of both is a
collaborator and is not part of the claims). -/
structure CacheState where
  cache : List (String × List Recipe)
  metadata : List (String × CacheMeta)
deriving Repr, DecidableEq

/-- `24 * 60 * 60` seconds: `self.cache_duration` (src/cache.py line 16). -/
def cacheDuration : ℚ := 24 * 60 * 60

/-- `self.max_cache_size` (src/cache.py line 15). -/
def maxCacheSize : ℕ := 1000

/-- `RecipeCache._is_cache_valid` (src/cache.py lines 77-83). -/
def isCacheValid (now : ℚ) (metadata : List (String × CacheMeta)) (k : String) : Bool :=
  match dictGet metadata k with
  | none => false
  | some m => decide (now - m.timestamp < cacheDuration)

/-- The `expired_keys` list collected by `RecipeCache._cleanup_cache`
(src/cache.py lines 90-93): keys of metadata entries older than the TTL. -/
def expiredKeysOf (now : ℚ) (metadata : List (String × CacheMeta)) : List String :=
  (metadata.filter (fun km => decide (now - km.2.timestamp > cacheDuration))).map Prod.fst

/-- The expired-entry sweep of `RecipeCache._cleanup_cache`
(src/cache.py lines 89-97). -/
def removeExpired (now : ℚ) (s : CacheState) : CacheState :=
  { cache := popKeys s.cache (expiredKeysOf now s.metadata),
    metadata := popKeys s.metadata (expiredKeysOf now s.metadata) }

/-- The ordering used by `sorted(self.metadata.keys(), key=...timestamp)`:
ascending creation timestamp (Python's sort is stable, as is
`List.insertionSort`). -/
def metaLe (a b : String × CacheMeta) : Prop := a.2.timestamp ≤ b.2.timestamp

instance : DecidableRel metaLe := fun a b => inferInstanceAs (Decidable (_ ≤ _))

/-- The `sorted_keys` list of `RecipeCache._cleanup_cache` (src/cache.py
lines 102-105): metadata keys sorted by ascending creation timestamp. -/
def sortedKeysOf (metadata : List (String × CacheMeta)) : List String :=
  (List.insertionSort metaLe metadata).map Prod.fst

/-- The `keys_to_remove` slice `sorted_keys[:-self.max_cache_size]`
(src/cache.py line 107). -/
def keysToRemoveOf (metadata : List (String × CacheMeta)) : List String :=
  (sortedKeysOf metadata).take ((sortedKeysOf metadata).length - maxCacheSize)

/-- The size-bound sweep of `RecipeCache._cleanup_cache`
(src/cache.py lines 99-110): when the store exceeds `max_cache_size`, the
metadata keys are sorted by timestamp and all but the newest
`max_cache_size` (`sorted_keys[:-self.max_cache_size]`) are popped. -/
def enforceSizeBound (s : CacheState) : CacheState :=
  if s.cache.length > maxCacheSize then
    { cache := popKeys s.cache (keysToRemoveOf s.metadata),
      metadata := popKeys s.metadata (keysToRemoveOf s.metadata) }
  else s

/-- `RecipeCache._cleanup_cache` (src/cache.py lines 85-110). -/
def cleanupCache (now : ℚ) (s : CacheState) : CacheState :=
  enforceSizeBound (removeExpired now s)

/-- The write part of `RecipeCache.store_cached_recipes` (src/cache.py lines
138-149): `self.cache[cache_key] = recipes` and the metadata assignment. -/
def storeInsert (now : ℚ) (s : CacheState) (k : String)
    (recipes : List Recipe) : CacheState :=
  { cache := dictInsert s.cache k recipes,
    metadata := dictInsert s.metadata k
      { timestamp := now, last_accessed := now, access_count := 1,
        recipe_count := recipes.length } }

/-- `RecipeCache.store_cached_recipes` (src/cache.py lines 130-156):
overwrite the entry and its metadata, then clean up. -/
def storeCachedRecipes (now : ℚ) (s : CacheState) (k : String)
    (recipes : List Recipe) : CacheState :=
  cleanupCache now (storeInsert now s k recipes)

/-- `RecipeCache.get_cached_recipes` (src/cache.py lines 112-128): on a valid
hit, update `last_accessed` and `access_count` of the entry's metadata and
return the stored recipes; otherwise return `None` and leave the state
untouched. -/
def getCachedRecipes (now : ℚ) (s : CacheState) (k : String) :
    Option (List Recipe) × CacheState :=
  if dictHasKey s.cache k && isCacheValid now s.metadata k then
    ((dictGet s.cache k),
     { s with metadata := s.metadata.map (fun p =>
         if p.1 == k then
           (p.1, { p.2 with last_accessed := now, access_count := p.2.access_count + 1 })
         else p) })
  else (none, s)

/-- `RecipeCache._generate_cache_key` (src/cache.py lines 63-75) computes
`md5(json.dumps({'ingredients': sorted(normalized ingredients), **kwargs},
sort_keys=True))`.  MD5 and the sorted-key JSON serialization are functions
of the pair (sorted normalized ingredient list, keyword options), so the key
is modelled as that pair: equal pairs yield equal cache keys.  The options
are kept opaque (`Opts`), since the claims only compare calls with identical
options. -/
def generateCacheKey {Opts : Type} (ingredients : List String) (opts : Opts) :
    List String × Opts :=
  (List.insertionSort (fun a b : String => a ≤ b)
      (ingredients.map (fun ing => pyStrip (pyLower ing))), opts)

/-- `create_cache_key` (src/cache.py lines 228-247): wraps the ingredient
list together with `max_results`, `cuisine` and any further options. -/
def createCacheKey {Opts : Type} (ingredients : List String) (maxResults : ℕ)
    (cuisine : Option String) (kwargs : Opts) :
    List String × (ℕ × Option String × Opts) :=
  generateCacheKey ingredients (maxResults, cuisine, kwargs)

/-- C4: the cache key is invariant under permutation of the ingredient list —
any two ingredient lists that are permutations of each other, with identical
options, produce the same cache key. -/
theorem cache_key_permutation_invariant {Opts : Type} (ing1 ing2 : List String)
    (maxResults : ℕ) (cuisine : Option String) (kwargs : Opts)
    (h : ing1.Perm ing2) :
    createCacheKey ing1 maxResults cuisine kwargs =
      createCacheKey ing2 maxResults cuisine kwargs := by
  unfold createCacheKey generateCacheKey
  have hp : (ing1.map (fun ing => pyStrip (pyLower ing))).Perm
      (ing2.map (fun ing => pyStrip (pyLower ing))) := h.map _
  have hperm : (List.insertionSort (fun a b : String => a ≤ b)
        (ing1.map (fun ing => pyStrip (pyLower ing)))).Perm
      (List.insertionSort (fun a b : String => a ≤ b)
        (ing2.map (fun ing => pyStrip (pyLower ing)))) :=
    ((List.perm_insertionSort _ _).trans hp).trans (List.perm_insertionSort _ _).symm
  have hs1 := List.sorted_insertionSort (fun a b : String => a ≤ b)
    (ing1.map (fun ing => pyStrip (pyLower ing)))
  have hs2 := List.sorted_insertionSort (fun a b : String => a ≤ b)
    (ing2.map (fun ing => pyStrip (pyLower ing)))
  rw [List.eq_of_perm_of_sorted hperm hs1 hs2]

/-- Witness for `cache_key_permutation_invariant`:
`make_key(["b","a"], opts) == make_key(["a","b"], opts)`. -/
theorem cache_key_permutation_invariant_witness :
    createCacheKey ["b", "a"] 10 none () = createCacheKey ["a", "b"] 10 none () :=
  cache_key_permutation_invariant ["b", "a"] ["a", "b"] 10 none () (by decide)

/-- Auxiliary: a key that is not in the dict has no binding. -/
theorem dictGet_eq_none_of_hasKey_false {β : Type} (l : List (String × β)) (k : String)
    (h : dictHasKey l k = false) : dictGet l k = none := by
  induction l with
  | nil => rfl
  | cons q l ih =>
    rw [dictHasKey, List.any_cons] at h
    have hq : (q.1 == k) = false := by
      cases hq : (q.1 == k) <;> simp [hq] at h ⊢
    have hl : dictHasKey l k = false := by
      rw [dictHasKey]
      cases hl : l.any (fun p => p.1 == k) <;> simp [hq, hl] at h ⊢
    rw [dictGet, List.find?_cons_of_neg _ (by simp [hq])]
    exact ih hl

/-- Auxiliary: a key that is in the dict has a binding. -/
theorem dictGet_isSome_of_hasKey {β : Type} (l : List (String × β)) (k : String)
    (h : dictHasKey l k = true) : ∃ v, dictGet l k = some v := by
  induction l with
  | nil => simp [dictHasKey] at h
  | cons q l ih =>
    by_cases hq : (q.1 == k) = true
    · exact ⟨q.2, by rw [dictGet, List.find?_cons_of_pos _ (by simpa using hq)]; rfl⟩
    · have hqf : (q.1 == k) = false := by
        cases hv : (q.1 == k)
        · rfl
        · exact absurd hv hq
      have h2 : dictHasKey l k = true := by
        rw [dictHasKey, List.any_cons, hqf, Bool.false_or] at h
        exact h
      obtain ⟨v, hv⟩ := ih h2
      refine ⟨v, ?_⟩
      rw [dictGet, List.find?_cons_of_neg _ (by simpa using hq)]
      exact hv

/-- Auxiliary: updating the value stored at key `k` in place does not change
the binding of any other key. -/
theorem dictGet_map_update_other {β : Type} (l : List (String × β)) (k k2 : String)
    (g : β → β) (hne : k2 ≠ k) :
    dictGet (l.map (fun p => if p.1 == k then (p.1, g p.2) else p)) k2 = dictGet l k2 := by
  induction l with
  | nil => rfl
  | cons q l ih =>
    by_cases hq : (q.1 == k) = true
    · have hk : q.1 = k := by simpa using hq
      have hq2 : ¬((q.1 == k2) = true) := by simp [hk]; exact fun he => hne he.symm
      rw [List.map_cons, if_pos hq, dictGet,
        List.find?_cons_of_neg _ (by simpa using hq2), dictGet,
        List.find?_cons_of_neg _ (by simpa using hq2)]
      exact ih
    · rw [List.map_cons, if_neg hq]
      by_cases hq2 : (q.1 == k2) = true
      · rw [dictGet, List.find?_cons_of_pos _ (by simpa using hq2), dictGet,
          List.find?_cons_of_pos _ (by simpa using hq2)]
      · rw [dictGet, List.find?_cons_of_neg _ (by simpa using hq2), dictGet,
          List.find?_cons_of_neg _ (by simpa using hq2)]
        exact ih

/-- Auxiliary: updating the value stored at key `k` in place rewrites the
binding of `k` through the update function. -/
theorem dictGet_map_update_self {β : Type} (l : List (String × β)) (k : String)
    (g : β → β) (m : β) (h : dictGet l k = some m) :
    dictGet (l.map (fun p => if p.1 == k then (p.1, g p.2) else p)) k = some (g m) := by
  induction l with
  | nil => simp [dictGet] at h
  | cons q l ih =>
    by_cases hq : (q.1 == k) = true
    · rw [dictGet, List.find?_cons_of_pos _ (by simpa using hq)] at h
      have hm : q.2 = m := by simpa using h
      rw [List.map_cons, if_pos hq, dictGet,
        List.find?_cons_of_pos _ (by simpa using hq)]
      simp [hm]
    · rw [dictGet, List.find?_cons_of_neg _ (by simpa using hq)] at h
      rw [List.map_cons, if_neg hq, dictGet,
        List.find?_cons_of_neg _ (by simpa using hq)]
      exact ih h

/-- Auxiliary: `dictHasKey` only depends on the key list. -/
theorem dictHasKey_map_fst {β : Type} (l : List (String × β)) (k : String) :
    dictHasKey l k = (l.map Prod.fst).any (fun x => x == k) := by
  induction l with
  | nil => rfl
  | cons q l ih =>
    rw [dictHasKey, List.any_cons, List.map_cons, List.any_cons, ← ih, dictHasKey]

/-- Auxiliary: `dictHasKey` only depends on the key list. -/
theorem dictHasKey_eq_of_same_keys {β γ : Type} (l : List (String × β))
    (l2 : List (String × γ)) (k : String) (h : l.map Prod.fst = l2.map Prod.fst) :
    dictHasKey l k = dictHasKey l2 k := by
  rw [dictHasKey_map_fst, dictHasKey_map_fst, h]

/-- C6 (amended): `get_cached_recipes(key)` returns `None` exactly when no
entry exists for the key or the entry's age is at least the 24h TTL (the
source tests `(time.time() - timestamp) < cache_duration`, so an entry whose
age equals the TTL exactly already misses); on a hit it returns the stored
payload unchanged, updates only that entry's `last_accessed` and
`access_count`, leaves every other metadata entry untouched, and never
touches the recipe store.  The hypothesis `hsync` states that the recipe
store and the metadata store hold the same keys, an invariant every
state-changing operation of `RecipeCache` maintains. -/
theorem get_cached_recipes_spec (now : ℚ) (s : CacheState) (k : String)
    (hsync : s.cache.map Prod.fst = s.metadata.map Prod.fst) :
    ((getCachedRecipes now s k).1 = none ↔
        dictGet s.cache k = none ∨
        ∃ m, dictGet s.metadata k = some m ∧ cacheDuration ≤ now - m.timestamp) ∧
    (getCachedRecipes now s k).2.cache = s.cache ∧
    ((getCachedRecipes now s k).1 = none → (getCachedRecipes now s k).2 = s) ∧
    (∀ r, (getCachedRecipes now s k).1 = some r →
      dictGet s.cache k = some r ∧
      (∀ k2, k2 ≠ k →
        dictGet (getCachedRecipes now s k).2.metadata k2 = dictGet s.metadata k2) ∧
      (∀ m, dictGet s.metadata k = some m →
        dictGet (getCachedRecipes now s k).2.metadata k =
          some { m with last_accessed := now, access_count := m.access_count + 1 })) := by
  by_cases hhit : (dictHasKey s.cache k && isCacheValid now s.metadata k) = true
  · -- valid hit
    have hres : getCachedRecipes now s k =
        ((dictGet s.cache k),
         { s with metadata := s.metadata.map (fun p =>
             if p.1 == k then
               (p.1, { p.2 with last_accessed := now, access_count := p.2.access_count + 1 })
             else p) }) := by
      rw [getCachedRecipes, if_pos hhit]
    obtain ⟨hkey, hvalid⟩ := Bool.and_eq_true _ _ |>.mp hhit
    obtain ⟨v, hv⟩ := dictGet_isSome_of_hasKey s.cache k hkey
    have hmv : ∃ m, dictGet s.metadata k = some m ∧ now - m.timestamp < cacheDuration := by
      rw [isCacheValid] at hvalid
      cases hm : dictGet s.metadata k with
      | none => rw [hm] at hvalid; cases hvalid
      | some m =>
        rw [hm] at hvalid
        exact ⟨m, rfl, of_decide_eq_true hvalid⟩
    obtain ⟨m0, hm0, hm0t⟩ := hmv
    constructor
    · -- the none-iff: here the result is `some v`, and the right side is false
      refine iff_of_false ?_ ?_
      · rw [hres]
        intro hcontra
        have hc : dictGet s.cache k = none := hcontra
        rw [hv] at hc
        cases hc
      · rintro (hnone | ⟨m, hm, hge⟩)
        · rw [hv] at hnone; cases hnone
        · rw [hm0] at hm
          have hmm : m0 = m := by injection hm
          rw [← hmm] at hge
          exact absurd hm0t (not_lt.mpr hge)
    constructor
    · rw [hres]
    constructor
    · intro hnone
      rw [hres] at hnone
      rw [hv] at hnone
      cases hnone
    · intro r hr
      rw [hres] at hr
      refine ⟨hr, ?_, ?_⟩
      · intro k2 hk2
        rw [hres]
        exact dictGet_map_update_other s.metadata k k2
          (fun m2 => { m2 with last_accessed := now, access_count := m2.access_count + 1 }) hk2
      · intro m hm
        rw [hres]
        exact dictGet_map_update_self s.metadata k
          (fun m2 => { m2 with last_accessed := now, access_count := m2.access_count + 1 }) m hm
  · -- miss
    have hres : getCachedRecipes now s k = (none, s) := by
      rw [getCachedRecipes, if_neg hhit]
    rw [hres]
    refine ⟨?_, rfl, fun _ => rfl, fun r hr => by cases hr⟩
    refine iff_of_true rfl ?_
    by_cases hkey : dictHasKey s.cache k = true
    · -- key present but invalid
      right
      have hvalid : isCacheValid now s.metadata k = false := by
        cases hval : isCacheValid now s.metadata k
        · rfl
        · exact absurd (by simp [hkey, hval]) hhit
      rw [isCacheValid] at hvalid
      have hkeym : dictHasKey s.metadata k = true := by
        rw [← dictHasKey_eq_of_same_keys s.cache s.metadata k hsync]
        exact hkey
      obtain ⟨m, hm⟩ := dictGet_isSome_of_hasKey s.metadata k hkeym
      rw [hm] at hvalid
      refine ⟨m, hm, ?_⟩
      have := of_decide_eq_false hvalid
      exact not_lt.mp this
    · -- no entry
      left
      have hkf : dictHasKey s.cache k = false := by
        cases hk : dictHasKey s.cache k
        · rfl
        · exact absurd hk hkey
      exact dictGet_eq_none_of_hasKey_false s.cache k hkf

/-- Metadata of an entry created at time 0. -/
def cacheMetaAtZero : CacheMeta :=
  { timestamp := 0, last_accessed := 0, access_count := 1, recipe_count := 1 }

/-- A one-entry cache state whose entry was created at time 0. -/
def boundaryCacheState : CacheState :=
  { cache := [("k", [recipeTwoUsed])], metadata := [("k", cacheMetaAtZero)] }

/-- C6 as stated is false exactly at the TTL boundary: at `now = 86400` the
entry created at time 0 exists and its age (86400 s) does not exceed the 24h
TTL (86400 s), yet `get_cached_recipes` returns `None`, because the source
requires `(time.time() - timestamp) < cache_duration` strictly. -/
theorem get_cached_recipes_boundary_counterexample :
    (getCachedRecipes 86400 boundaryCacheState "k").1 = none ∧
    dictGet boundaryCacheState.cache "k" = some [recipeTwoUsed] ∧
    dictGet boundaryCacheState.metadata "k" = some cacheMetaAtZero ∧
    ¬((86400 : ℚ) - cacheMetaAtZero.timestamp > cacheDuration) := by
  have hget : dictGet boundaryCacheState.metadata "k" = some cacheMetaAtZero := rfl
  have hvalid : isCacheValid 86400 boundaryCacheState.metadata "k" = false := by
    rw [isCacheValid, hget]
    show decide ((86400 : ℚ) - cacheMetaAtZero.timestamp < cacheDuration) = false
    exact decide_eq_false (by norm_num [cacheMetaAtZero, cacheDuration])
  have hcond : (dictHasKey boundaryCacheState.cache "k" &&
      isCacheValid 86400 boundaryCacheState.metadata "k") = false := by
    rw [hvalid, Bool.and_false]
  refine ⟨?_, rfl, hget, ?_⟩
  · rw [getCachedRecipes, if_neg (by simp [hcond])]
  · norm_num [cacheMetaAtZero, cacheDuration]

/-- Witness for `get_cached_recipes_spec` at a concrete fresh state
(a hit at `now = 100`). -/
theorem get_cached_recipes_spec_witness :
    ((getCachedRecipes 100 boundaryCacheState "k").1 = none ↔
        dictGet boundaryCacheState.cache "k" = none ∨
        ∃ m, dictGet boundaryCacheState.metadata "k" = some m ∧
          cacheDuration ≤ 100 - m.timestamp) ∧
    (getCachedRecipes 100 boundaryCacheState "k").2.cache = boundaryCacheState.cache ∧
    ((getCachedRecipes 100 boundaryCacheState "k").1 = none →
      (getCachedRecipes 100 boundaryCacheState "k").2 = boundaryCacheState) ∧
    (∀ r, (getCachedRecipes 100 boundaryCacheState "k").1 = some r →
      dictGet boundaryCacheState.cache "k" = some r ∧
      (∀ k2, k2 ≠ "k" →
        dictGet (getCachedRecipes 100 boundaryCacheState "k").2.metadata k2 =
          dictGet boundaryCacheState.metadata k2) ∧
      (∀ m, dictGet boundaryCacheState.metadata "k" = some m →
        dictGet (getCachedRecipes 100 boundaryCacheState "k").2.metadata "k" =
          some { m with last_accessed := 100, access_count := m.access_count + 1 })) :=
  get_cached_recipes_spec 100 boundaryCacheState "k" rfl

/-- Auxiliary: after `d[k] = v`, looking up `k` yields `v`. -/
theorem dictGet_dictInsert_self {β : Type} (l : List (String × β)) (k : String) (v : β) :
    dictGet (dictInsert l k v) k = some v := by
  rw [dictInsert]
  by_cases h : l.any (fun p => p.1 == k) = true
  · rw [if_pos h]
    induction l with
    | nil => simp [dictHasKey] at h
    | cons q l ih =>
      by_cases hq : (q.1 == k) = true
      · rw [List.map_cons, if_pos hq, dictGet,
          List.find?_cons_of_pos _ (by simp)]
        rfl
      · rw [List.any_cons] at h
        have h2 : l.any (fun p => p.1 == k) = true := by
          cases hl : l.any (fun p => p.1 == k)
          · rw [hl] at h
            cases hv : (q.1 == k)
            · rw [hv] at h; cases h
            · exact absurd hv hq
          · rfl
        rw [List.map_cons, if_neg hq, dictGet,
          List.find?_cons_of_neg _ (by simpa using hq)]
        exact ih h2
  · rw [if_neg h]
    induction l with
    | nil =>
      rw [List.nil_append, dictGet, List.find?_cons_of_pos _ (by simp)]
      rfl
    | cons q l ih =>
      rw [List.any_cons] at h
      have hq : (q.1 == k) = false := by
        cases hv : (q.1 == k)
        · rfl
        · exact absurd (by rw [hv, Bool.true_or]) h
      have h2 : ¬(l.any (fun p => p.1 == k) = true) := by
        intro hl
        rw [hq, hl] at h
        exact h rfl
      rw [List.cons_append, dictGet, List.find?_cons_of_neg _ (by simp [hq])]
      exact ih h2

/-- Auxiliary: popping keys that do not include `k` does not change the
binding of `k`. -/
theorem dictGet_popKeys_of_not_mem {β : Type} (l : List (String × β)) (ks : List String)
    (k : String) (h : ks.contains k = false) :
    dictGet (popKeys l ks) k = dictGet l k := by
  induction l with
  | nil => rfl
  | cons q l ih =>
    rw [popKeys, List.filter_cons]
    by_cases hq : (q.1 == k) = true
    · have hqk : q.1 = k := by simpa using hq
      have hc : ks.contains q.1 = false := by rw [hqk]; exact h
      simp only [hc, Bool.not_false, if_true]
      rw [dictGet, List.find?_cons_of_pos _ (by simpa using hq), dictGet,
        List.find?_cons_of_pos _ (by simpa using hq)]
    · have hr : dictGet (q :: l) k = dictGet l k := by
        rw [dictGet, List.find?_cons_of_neg _ (by simpa using hq)]
        rfl
      rw [hr]
      rw [popKeys] at ih
      cases hc : ks.contains q.1
      · simp only [hc, Bool.not_false, if_true]
        have hr2 : dictGet (q :: List.filter (fun p => !ks.contains p.1) l) k =
            dictGet (List.filter (fun p => !ks.contains p.1) l) k := by
          rw [dictGet, List.find?_cons_of_neg _ (by simpa using hq)]
          rfl
        rw [hr2]
        exact ih
      · simp only [hc, Bool.not_true, if_false]
        exact ih

/-- Auxiliary: every binding of key `k` in `dictInsert l k v` carries `v`. -/
theorem mem_dictInsert_key_eq {β : Type} (l : List (String × β)) (k : String) (v : β)
    (p : String × β) (hp : p ∈ dictInsert l k v) (hk : p.1 = k) : p = (k, v) := by
  rw [dictInsert] at hp
  by_cases h : l.any (fun p => p.1 == k) = true
  · rw [if_pos h] at hp
    obtain ⟨q, hq, hqe⟩ := List.mem_map.mp hp
    by_cases hqk : (q.1 == k) = true
    · rw [if_pos hqk] at hqe; exact hqe.symm
    · rw [if_neg hqk] at hqe
      rw [← hqe] at hk
      exact absurd (by simp [hk]) hqk
  · rw [if_neg h] at hp
    rcases List.mem_append.mp hp with hmem | hmem
    · exfalso
      apply h
      rw [List.any_eq_true]
      exact ⟨p, hmem, by simp [hk]⟩
    · simpa using hmem

/-- Auxiliary: `dictHasKey` as membership in the key list. -/
theorem dictHasKey_iff_mem {β : Type} (l : List (String × β)) (k : String) :
    dictHasKey l k = true ↔ k ∈ l.map Prod.fst := by
  rw [dictHasKey, List.any_eq_true]
  constructor
  · rintro ⟨p, hp, hpk⟩
    exact List.mem_map.mpr ⟨p, hp, by simpa using hpk⟩
  · intro h
    obtain ⟨p, hp, hpk⟩ := List.mem_map.mp h
    exact ⟨p, hp, by simp [hpk]⟩

/-- Auxiliary: `List.contains` on strings as membership. -/
theorem strContains_iff_mem (ks : List String) (k : String) :
    ks.contains k = true ↔ k ∈ ks := by
  induction ks with
  | nil => simp
  | cons a ks ih =>
    rw [List.contains_cons]
    constructor
    · intro h
      rcases Bool.or_eq_true _ _ |>.mp h with h1 | h1
      · have hka : k = a := by simpa using h1
        rw [hka]
        exact List.mem_cons_self a ks
      · exact List.mem_cons_of_mem a (ih.mp h1)
    · intro h
      rcases List.mem_cons.mp h with h1 | h1
      · rw [h1]; simp
      · rw [ih.mpr h1, Bool.or_true]

/-- Auxiliary: in-place overwrite keeps the key list. -/
theorem dictInsert_map_fst_of_hasKey {β : Type} (l : List (String × β)) (k : String)
    (v : β) (h : l.any (fun p => p.1 == k) = true) :
    (dictInsert l k v).map Prod.fst = l.map Prod.fst := by
  rw [dictInsert, if_pos h, List.map_map]
  apply List.map_congr_left
  intro p _
  by_cases hq : (p.1 == k) = true
  · have hk : p.1 = k := by simpa using hq
    simp [Function.comp, hk]
  · have hne : ¬(p.1 = k) := by simpa using hq
    simp [Function.comp, hne]

/-- Auxiliary: insert of a fresh key appends it to the key list. -/
theorem dictInsert_map_fst_of_not_hasKey {β : Type} (l : List (String × β)) (k : String)
    (v : β) (h : ¬(l.any (fun p => p.1 == k) = true)) :
    (dictInsert l k v).map Prod.fst = l.map Prod.fst ++ [k] := by
  rw [dictInsert, if_neg h, List.map_append]
  rfl

/-- Auxiliary: popping keys filters the key list. -/
theorem popKeys_map_fst {β : Type} (l : List (String × β)) (ks : List String) :
    (popKeys l ks).map Prod.fst = (l.map Prod.fst).filter (fun x => !(ks.contains x)) := by
  induction l with
  | nil => rfl
  | cons q l ih =>
    rw [popKeys, List.filter_cons, List.map_cons, List.filter_cons]
    rw [popKeys] at ih
    cases hc : ks.contains q.1
    · show q.1 :: (List.filter (fun p => !(ks.contains p.1)) l).map Prod.fst =
        q.1 :: (l.map Prod.fst).filter (fun x => !(ks.contains x))
      rw [ih]
    · show (List.filter (fun p => !(ks.contains p.1)) l).map Prod.fst =
        (l.map Prod.fst).filter (fun x => !(ks.contains x))
      exact ih

/-- Auxiliary: two bindings of a key-nodup dict with the same key coincide. -/
theorem eq_of_mem_of_nodup_keys {β : Type} (l : List (String × β))
    (hnd : (l.map Prod.fst).Nodup) (p q : String × β) (hp : p ∈ l) (hq : q ∈ l)
    (hk : p.1 = q.1) : p = q := by
  induction l with
  | nil => cases hp
  | cons a l ih =>
    rw [List.map_cons, List.nodup_cons] at hnd
    rcases List.mem_cons.mp hp with hp1 | hp1 <;> rcases List.mem_cons.mp hq with hq1 | hq1
    · rw [hp1, hq1]
    · exfalso
      apply hnd.1
      rw [hp1] at hk
      exact List.mem_map.mpr ⟨q, hq1, hk.symm⟩
    · exfalso
      apply hnd.1
      rw [hq1] at hk
      exact List.mem_map.mpr ⟨p, hp1, hk⟩
    · exact ih hnd.2 hp1 hq1

/-- Auxiliary: inserting an element related to a trailing maximum keeps that
maximum in the last position. -/
theorem orderedInsert_append_last {α : Type} (r : α → α → Prop) [DecidableRel r]
    (y x : α) (m : List α) (hyx : r y x) :
    ∃ m2, List.orderedInsert r y (m ++ [x]) = m2 ++ [x] := by
  induction m with
  | nil =>
    refine ⟨[y], ?_⟩
    rw [List.nil_append, List.orderedInsert, if_pos hyx]
    rfl
  | cons b m ih =>
    rw [List.cons_append, List.orderedInsert]
    by_cases hyb : r y b
    · exact ⟨y :: b :: m, by rw [if_pos hyb]; rfl⟩
    · obtain ⟨m2, hm2⟩ := ih
      exact ⟨b :: m2, by rw [if_neg hyb, hm2]; rfl⟩

/-- Auxiliary: a stable insertion sort of `m ++ [x]` keeps `x` last whenever
every element of `m` sorts no later than `x` (this is how Python's stable
`sorted` treats a just-appended entry with the largest timestamp). -/
theorem insertionSort_append_last {α : Type} (r : α → α → Prop) [DecidableRel r]
    (x : α) (m : List α) (h : ∀ y ∈ m, r y x) :
    ∃ m2, List.insertionSort r (m ++ [x]) = m2 ++ [x] := by
  induction m with
  | nil => exact ⟨[], rfl⟩
  | cons y m ih =>
    obtain ⟨m2, hm2⟩ := ih (fun z hz => h z (List.mem_cons_of_mem _ hz))
    rw [List.cons_append, List.insertionSort, hm2]
    exact orderedInsert_append_last r y x m2 (h y (List.mem_cons_self _ _))

/-- Auxiliary: a filter and its complement partition a list's length. -/
theorem length_filter_add_length_filter_not {α : Type} (l : List α) (p : α → Bool) :
    (l.filter p).length + (l.filter (fun x => !(p x))).length = l.length := by
  induction l with
  | nil => rfl
  | cons a l ih =>
    rw [List.filter_cons, List.filter_cons]
    cases hp : p a
    · show (l.filter p).length + (a :: l.filter (fun x => !(p x))).length = (a :: l).length
      rw [List.length_cons, List.length_cons, ← ih]
      omega
    · show (a :: l.filter p).length + (l.filter (fun x => !(p x))).length = (a :: l).length
      rw [List.length_cons, List.length_cons, ← ih]
      omega

/-- Auxiliary: removing a nodup batch of present keys shortens a nodup key
list by exactly the batch size. -/
theorem length_filter_not_contains (K ks : List String) (hK : K.Nodup)
    (hks : ks.Nodup) (hsub : ∀ x ∈ ks, x ∈ K) :
    (K.filter (fun x => !(ks.contains x))).length = K.length - ks.length := by
  have hperm : (K.filter (fun x => ks.contains x)).Perm ks := by
    rw [List.perm_ext_iff_of_nodup (hK.filter _) hks]
    intro a
    rw [List.mem_filter]
    constructor
    · rintro ⟨_, hc⟩
      exact (strContains_iff_mem ks a).mp hc
    · intro ha
      exact ⟨hsub a ha, (strContains_iff_mem ks a).mpr ha⟩
  have hlen := hperm.length_eq
  have hsplit := length_filter_add_length_filter_not K (fun x => ks.contains x)
  omega

instance : IsTotal (String × CacheMeta) metaLe :=
  ⟨fun a b => le_total a.2.timestamp b.2.timestamp⟩

instance : IsTrans (String × CacheMeta) metaLe :=
  ⟨fun _ _ _ hab hbc => le_trans hab hbc⟩

/-- Auxiliary: a member of `dictInsert l k v` is the new binding or an old
binding. -/
theorem mem_dictInsert {β : Type} (l : List (String × β)) (k : String) (v : β)
    (p : String × β) (hp : p ∈ dictInsert l k v) : p = (k, v) ∨ p ∈ l := by
  rw [dictInsert] at hp
  by_cases h : l.any (fun p => p.1 == k) = true
  · rw [if_pos h] at hp
    obtain ⟨q, hq, hqe⟩ := List.mem_map.mp hp
    by_cases hqk : (q.1 == k) = true
    · rw [if_pos hqk] at hqe
      exact Or.inl hqe.symm
    · rw [if_neg hqk] at hqe
      exact Or.inr (hqe ▸ hq)
  · rw [if_neg h] at hp
    rcases List.mem_append.mp hp with hmem | hmem
    · exact Or.inr hmem
    · exact Or.inl (by simpa using hmem)

/-- Auxiliary: the key just stored is never in the expired-keys sweep list,
because its freshly written timestamp equals `now`. -/
theorem expiredKeysOf_storeInsert_not_new (now : ℚ) (s : CacheState) (k : String)
    (recipes : List Recipe) :
    (expiredKeysOf now (storeInsert now s k recipes).metadata).contains k = false := by
  cases hc : (expiredKeysOf now (storeInsert now s k recipes).metadata).contains k
  · rfl
  · exfalso
    have hk := (strContains_iff_mem _ k).mp hc
    rw [expiredKeysOf] at hk
    obtain ⟨km, hkm, hkmk⟩ := List.mem_map.mp hk
    rw [List.mem_filter] at hkm
    have hkmv := mem_dictInsert_key_eq s.metadata k _ km hkm.1 hkmk
    have hts : km.2.timestamp = now := by rw [hkmv]
    have hgt := of_decide_eq_true hkm.2
    rw [hts, sub_self] at hgt
    have : (0 : ℚ) < cacheDuration := by norm_num [cacheDuration]
    linarith

/-- Auxiliary: the key just stored is never in the size-bound eviction list.
If the key overwrote an existing entry the store did not grow past the bound
and the slice `sorted_keys[:-max_cache_size]` is empty; if it was appended,
its timestamp `now` is maximal, so the stable sort leaves it in the last
position, outside the evicted prefix. -/
theorem keysToRemoveOf_not_new (now : ℚ) (s : CacheState) (k : String)
    (recipes : List Recipe)
    (hnodup : (s.metadata.map Prod.fst).Nodup)
    (hts : ∀ p ∈ s.metadata, p.2.timestamp ≤ now)
    (hlen : s.metadata.length ≤ maxCacheSize) :
    (keysToRemoveOf (removeExpired now (storeInsert now s k recipes)).metadata).contains k
      = false := by
  by_cases hk : s.metadata.any (fun p => p.1 == k) = true
  · -- overwrite in place: the store does not grow, nothing is size-evicted
    have h1 : (removeExpired now (storeInsert now s k recipes)).metadata.length ≤
        (storeInsert now s k recipes).metadata.length := List.length_filter_le _ _
    have h2 : (storeInsert now s k recipes).metadata.length = s.metadata.length := by
      show (dictInsert s.metadata k _).length = s.metadata.length
      rw [dictInsert, if_pos hk, List.length_map]
    have h3 : (sortedKeysOf (removeExpired now (storeInsert now s k recipes)).metadata).length
        = (removeExpired now (storeInsert now s k recipes)).metadata.length := by
      rw [sortedKeysOf, List.length_map]
      exact (List.perm_insertionSort metaLe _).length_eq
    have h4 : (sortedKeysOf (removeExpired now (storeInsert now s k recipes)).metadata).length
        - maxCacheSize = 0 := by omega
    rw [keysToRemoveOf, h4, List.take_zero]
    rfl
  · -- fresh key: it is appended with the maximal timestamp and sorts last
    have hmcs : 1 ≤ maxCacheSize := by norm_num [maxCacheSize]
    have hmd1 : (storeInsert now s k recipes).metadata =
        s.metadata ++ [(k, ⟨now, now, 1, recipes.length⟩)] := by
      show dictInsert s.metadata k _ = _
      rw [dictInsert, if_neg hk]
    have hekk := expiredKeysOf_storeInsert_not_new now s k recipes
    show (keysToRemoveOf (popKeys (storeInsert now s k recipes).metadata
        (expiredKeysOf now (storeInsert now s k recipes).metadata))).contains k = false
    rw [hmd1] at hekk ⊢
    have hsplit : popKeys (s.metadata ++ [((k : String), (⟨now, now, 1, recipes.length⟩ : CacheMeta))])
          (expiredKeysOf now (s.metadata ++ [(k, ⟨now, now, 1, recipes.length⟩)])) =
        popKeys s.metadata (expiredKeysOf now (s.metadata ++ [(k, ⟨now, now, 1, recipes.length⟩)]))
          ++ [(k, ⟨now, now, 1, recipes.length⟩)] := by
      rw [popKeys, popKeys, List.filter_append]
      congr 1
      have hknot : k ∉ expiredKeysOf now
          (s.metadata ++ [(k, ⟨now, now, 1, recipes.length⟩)]) := by
        intro hmem
        rw [(strContains_iff_mem _ k).mpr hmem] at hekk
        cases hekk
      simp [hknot]
    rw [hsplit]
    have hall : ∀ y ∈ popKeys s.metadata
        (expiredKeysOf now (s.metadata ++ [(k, ⟨now, now, 1, recipes.length⟩)])),
        metaLe y (k, ⟨now, now, 1, recipes.length⟩) := by
      intro y hy
      rw [popKeys, List.mem_filter] at hy
      exact hts y hy.1
    obtain ⟨m2, hm2⟩ := insertionSort_append_last metaLe (k, ⟨now, now, 1, recipes.length⟩)
      (popKeys s.metadata (expiredKeysOf now (s.metadata ++ [(k, ⟨now, now, 1, recipes.length⟩)])))
      hall
    rw [keysToRemoveOf, sortedKeysOf, hm2, List.map_append]
    have hknotin : k ∉ m2.map Prod.fst := by
      have hperm : (m2 ++ [((k : String), (⟨now, now, 1, recipes.length⟩ : CacheMeta))]).Perm
          (popKeys s.metadata (expiredKeysOf now (s.metadata ++ [(k, ⟨now, now, 1, recipes.length⟩)]))
            ++ [(k, ⟨now, now, 1, recipes.length⟩)]) :=
        hm2 ▸ List.perm_insertionSort metaLe _
      have hndX : ((popKeys s.metadata
          (expiredKeysOf now (s.metadata ++ [(k, ⟨now, now, 1, recipes.length⟩)]))
            ++ [((k : String), (⟨now, now, 1, recipes.length⟩ : CacheMeta))]).map Prod.fst).Nodup := by
        rw [List.map_append, popKeys_map_fst]
        rw [List.nodup_append]
        refine ⟨hnodup.filter _, List.nodup_singleton _, ?_⟩
        intro a ha hamem
        have hak : a = k := by simpa using hamem
        rw [hak] at ha
        have hkmem : k ∈ s.metadata.map Prod.fst := List.mem_of_mem_filter ha
        exact hk ((dictHasKey_iff_mem s.metadata k).mpr hkmem)
      have hnd2 : ((m2 ++ [((k : String), (⟨now, now, 1, recipes.length⟩ : CacheMeta))]).map
          Prod.fst).Nodup := by
        exact ((hperm.map Prod.fst).nodup_iff).mpr hndX
      rw [List.map_append, List.nodup_append] at hnd2
      intro hmem
      exact hnd2.2.2 hmem (by simp)
    have hle : (m2 ++ [((k : String), (⟨now, now, 1, recipes.length⟩ : CacheMeta))]).length
        - maxCacheSize ≤ (m2.map Prod.fst).length := by
      rw [List.length_append, List.length_map]
      simp only [List.length_singleton]
      omega
    have hlen2 : ((m2 ++ [((k : String), (⟨now, now, 1, recipes.length⟩ : CacheMeta))]).map
        Prod.fst).length = (m2 ++ [((k : String), (⟨now, now, 1, recipes.length⟩ : CacheMeta))]).length := List.length_map _ _
    rw [← List.map_append, hlen2, List.map_append]
    rw [List.take_append_of_le_length hle]
    cases hc : ((m2.map Prod.fst).take
        ((m2 ++ [((k : String), (⟨now, now, 1, recipes.length⟩ : CacheMeta))]).length - maxCacheSize)).contains k
    · rfl
    · exfalso
      have hmem := (strContains_iff_mem _ k).mp hc
      exact hknotin (List.take_subset _ _ hmem)

/-- Auxiliary: the write step keeps the recipe store and the metadata store
on the same key list. -/
theorem storeInsert_sync (now : ℚ) (s : CacheState) (k : String) (recipes : List Recipe)
    (hsync : s.cache.map Prod.fst = s.metadata.map Prod.fst) :
    (storeInsert now s k recipes).cache.map Prod.fst =
      (storeInsert now s k recipes).metadata.map Prod.fst := by
  have hck : (s.cache.any fun p => p.1 == k) = (s.metadata.any fun p => p.1 == k) :=
    dictHasKey_eq_of_same_keys s.cache s.metadata k hsync
  show (dictInsert s.cache k recipes).map Prod.fst = (dictInsert s.metadata k _).map Prod.fst
  by_cases hk : (s.metadata.any fun p => p.1 == k) = true
  · rw [dictInsert_map_fst_of_hasKey _ _ _ (by rw [hck]; exact hk),
      dictInsert_map_fst_of_hasKey _ _ _ hk, hsync]
  · rw [dictInsert_map_fst_of_not_hasKey _ _ _ (by rw [hck]; exact hk),
      dictInsert_map_fst_of_not_hasKey _ _ _ hk, hsync]

/-- Auxiliary: the expired sweep keeps the two stores on the same key list. -/
theorem removeExpired_sync (now : ℚ) (st : CacheState)
    (h : st.cache.map Prod.fst = st.metadata.map Prod.fst) :
    (removeExpired now st).cache.map Prod.fst =
      (removeExpired now st).metadata.map Prod.fst := by
  show (popKeys st.cache _).map Prod.fst = (popKeys st.metadata _).map Prod.fst
  rw [popKeys_map_fst, popKeys_map_fst, h]

/-- Auxiliary: the write step keeps the metadata key list duplicate-free. -/
theorem storeInsert_metadata_nodup (now : ℚ) (s : CacheState) (k : String)
    (recipes : List Recipe) (hnodup : (s.metadata.map Prod.fst).Nodup) :
    ((storeInsert now s k recipes).metadata.map Prod.fst).Nodup := by
  show ((dictInsert s.metadata k _).map Prod.fst).Nodup
  by_cases hk : (s.metadata.any fun p => p.1 == k) = true
  · rw [dictInsert_map_fst_of_hasKey _ _ _ hk]
    exact hnodup
  · rw [dictInsert_map_fst_of_not_hasKey _ _ _ hk]
    refine hnodup.append (List.nodup_singleton _) ?_
    intro a ha hamem
    have hak : a = k := by simpa using hamem
    rw [hak] at ha
    exact hk ((dictHasKey_iff_mem s.metadata k).mpr ha)

/-- Auxiliary: the expired sweep keeps the metadata key list duplicate-free. -/
theorem removeExpired_metadata_nodup (now : ℚ) (st : CacheState)
    (h : (st.metadata.map Prod.fst).Nodup) :
    ((removeExpired now st).metadata.map Prod.fst).Nodup := by
  show ((popKeys st.metadata _).map Prod.fst).Nodup
  rw [popKeys_map_fst]
  exact h.filter _

/-- C5: after `store_cached_recipes(key, recipes)` the entry for that key
holds the new recipes (overwriting any prior entry, with fresh metadata),
every TTL-expired entry (strictly older than 24h) has been removed, the
store holds at most `max_cache_size` (1000) entries, and the entries removed
by the size bound are oldest-by-creation-timestamp first (every evicted
entry's timestamp is no newer than every surviving entry's).  The hypotheses
are the well-formedness invariants every `RecipeCache` state reachable by
these operations satisfies: the two stores share their key list, keys are
unique, stored timestamps do not exceed the current clock reading, and the
store is within the size bound before the call. -/
theorem store_cached_recipes_spec (now : ℚ) (s : CacheState) (k : String)
    (recipes : List Recipe)
    (hsync : s.cache.map Prod.fst = s.metadata.map Prod.fst)
    (hnodup : (s.metadata.map Prod.fst).Nodup)
    (hts : ∀ p ∈ s.metadata, p.2.timestamp ≤ now)
    (hlen : s.metadata.length ≤ maxCacheSize) :
    dictGet (storeCachedRecipes now s k recipes).cache k = some recipes ∧
    dictGet (storeCachedRecipes now s k recipes).metadata k =
      some { timestamp := now, last_accessed := now, access_count := 1,
             recipe_count := recipes.length } ∧
    (∀ p ∈ (storeCachedRecipes now s k recipes).metadata,
      now - p.2.timestamp ≤ cacheDuration) ∧
    (storeCachedRecipes now s k recipes).cache.length ≤ maxCacheSize ∧
    (∀ p ∈ (removeExpired now (storeInsert now s k recipes)).metadata,
      p.1 ∉ (storeCachedRecipes now s k recipes).metadata.map Prod.fst →
      ∀ q ∈ (storeCachedRecipes now s k recipes).metadata,
        p.2.timestamp ≤ q.2.timestamp) := by
  have hekk := expiredKeysOf_storeInsert_not_new now s k recipes
  have hktr := keysToRemoveOf_not_new now s k recipes hnodup hts hlen
  have hs2ck : dictGet (removeExpired now (storeInsert now s k recipes)).cache k
      = some recipes := by
    show dictGet (popKeys (storeInsert now s k recipes).cache
      (expiredKeysOf now (storeInsert now s k recipes).metadata)) k = some recipes
    rw [dictGet_popKeys_of_not_mem _ _ _ hekk]
    exact dictGet_dictInsert_self s.cache k recipes
  have hs2mk : dictGet (removeExpired now (storeInsert now s k recipes)).metadata k
      = some { timestamp := now, last_accessed := now, access_count := 1,
               recipe_count := recipes.length } := by
    show dictGet (popKeys (storeInsert now s k recipes).metadata
      (expiredKeysOf now (storeInsert now s k recipes).metadata)) k = _
    rw [dictGet_popKeys_of_not_mem _ _ _ hekk]
    exact dictGet_dictInsert_self s.metadata k _
  have hnd2 : ((removeExpired now (storeInsert now s k recipes)).metadata.map Prod.fst).Nodup :=
    removeExpired_metadata_nodup now _ (storeInsert_metadata_nodup now s k recipes hnodup)
  have hsync2 : (removeExpired now (storeInsert now s k recipes)).cache.map Prod.fst =
      (removeExpired now (storeInsert now s k recipes)).metadata.map Prod.fst :=
    removeExpired_sync now _ (storeInsert_sync now s k recipes hsync)
  have hnoexp : ∀ p ∈ (removeExpired now (storeInsert now s k recipes)).metadata,
      now - p.2.timestamp ≤ cacheDuration := by
    intro p hp
    have hp' := List.mem_filter.mp hp
    by_contra hgt
    have hgt' : cacheDuration < now - p.2.timestamp := not_le.mp hgt
    have hin : p.1 ∈ expiredKeysOf now (storeInsert now s k recipes).metadata := by
      rw [expiredKeysOf]
      exact List.mem_map.mpr ⟨p, List.mem_filter.mpr ⟨hp'.1, decide_eq_true hgt'⟩, rfl⟩
    have hbad := hp'.2
    rw [(strContains_iff_mem _ _).mpr hin] at hbad
    exact absurd hbad (by simp)
  rw [storeCachedRecipes, cleanupCache]
  by_cases hbig : (removeExpired now (storeInsert now s k recipes)).cache.length > maxCacheSize
  · -- size bound exceeded: evict the oldest keys
    rw [enforceSizeBound, if_pos hbig]
    have hKnd : ((removeExpired now (storeInsert now s k recipes)).cache.map Prod.fst).Nodup := by
      rw [hsync2]; exact hnd2
    have hperm_sorted : (sortedKeysOf
        (removeExpired now (storeInsert now s k recipes)).metadata).Perm
        ((removeExpired now (storeInsert now s k recipes)).metadata.map Prod.fst) :=
      (List.perm_insertionSort metaLe _).map Prod.fst
    have hsortnd : (sortedKeysOf
        (removeExpired now (storeInsert now s k recipes)).metadata).Nodup :=
      (hperm_sorted.nodup_iff).mpr hnd2
    have hktrnd : (keysToRemoveOf
        (removeExpired now (storeInsert now s k recipes)).metadata).Nodup :=
      hsortnd.sublist (List.take_sublist _ _)
    have hktrsub : ∀ x ∈ keysToRemoveOf
        (removeExpired now (storeInsert now s k recipes)).metadata,
        x ∈ (removeExpired now (storeInsert now s k recipes)).cache.map Prod.fst := by
      intro x hx
      have hx2 := List.take_subset _ _ hx
      rw [hsync2]
      exact hperm_sorted.mem_iff.mp hx2
    refine ⟨?_, ?_, ?_, ?_, ?_⟩
    · show dictGet (popKeys (removeExpired now (storeInsert now s k recipes)).cache
        (keysToRemoveOf (removeExpired now (storeInsert now s k recipes)).metadata)) k
        = some recipes
      rw [dictGet_popKeys_of_not_mem _ _ _ hktr]
      exact hs2ck
    · show dictGet (popKeys (removeExpired now (storeInsert now s k recipes)).metadata
        (keysToRemoveOf (removeExpired now (storeInsert now s k recipes)).metadata)) k = _
      rw [dictGet_popKeys_of_not_mem _ _ _ hktr]
      exact hs2mk
    · intro p hp
      exact hnoexp p (List.mem_filter.mp hp).1
    · -- the evicted state has exactly max_cache_size entries
      have hsortlen : (sortedKeysOf
          (removeExpired now (storeInsert now s k recipes)).metadata).length =
          (removeExpired now (storeInsert now s k recipes)).metadata.length := by
        rw [sortedKeysOf, List.length_map]
        exact (List.perm_insertionSort metaLe _).length_eq
      have hmdc : (removeExpired now (storeInsert now s k recipes)).metadata.length =
          (removeExpired now (storeInsert now s k recipes)).cache.length := by
        have h1 := congrArg List.length hsync2
        rw [List.length_map, List.length_map] at h1
        exact h1.symm
      have hktrlen : (keysToRemoveOf
          (removeExpired now (storeInsert now s k recipes)).metadata).length =
          (sortedKeysOf (removeExpired now (storeInsert now s k recipes)).metadata).length
            - maxCacheSize := by
        rw [keysToRemoveOf, List.length_take]
        exact Nat.min_eq_left (Nat.sub_le _ _)
      have hcount : (popKeys (removeExpired now (storeInsert now s k recipes)).cache
          (keysToRemoveOf (removeExpired now (storeInsert now s k recipes)).metadata)).length =
          ((removeExpired now (storeInsert now s k recipes)).cache.map Prod.fst).length -
          (keysToRemoveOf (removeExpired now (storeInsert now s k recipes)).metadata).length := by
        rw [← List.length_map _ Prod.fst, popKeys_map_fst]
        exact length_filter_not_contains _ _ hKnd hktrnd hktrsub
      show (popKeys (removeExpired now (storeInsert now s k recipes)).cache
        (keysToRemoveOf (removeExpired now (storeInsert now s k recipes)).metadata)).length
        ≤ maxCacheSize
      rw [hcount, List.length_map]
      omega
    · -- oldest-by-timestamp entries were removed first
      intro p hp hpnot q hq
      have hqmem := List.mem_filter.mp hq
      have hktr_eq : keysToRemoveOf (removeExpired now (storeInsert now s k recipes)).metadata
          = ((List.insertionSort metaLe
              (removeExpired now (storeInsert now s k recipes)).metadata).take
            (((List.insertionSort metaLe
              (removeExpired now (storeInsert now s k recipes)).metadata).map Prod.fst).length
              - maxCacheSize)).map Prod.fst := by
        rw [keysToRemoveOf, sortedKeysOf, ← List.map_take]
      have hpktr : p.1 ∈ keysToRemoveOf
          (removeExpired now (storeInsert now s k recipes)).metadata := by
        by_contra hnot
        have hkeep : (!((keysToRemoveOf
            (removeExpired now (storeInsert now s k recipes)).metadata).contains p.1)) = true := by
          cases hcc : (keysToRemoveOf
              (removeExpired now (storeInsert now s k recipes)).metadata).contains p.1
          · rfl
          · exact absurd ((strContains_iff_mem _ _).mp hcc) hnot
        exact hpnot (List.mem_map.mpr ⟨p, List.mem_filter.mpr ⟨hp, hkeep⟩, rfl⟩)
      rw [hktr_eq] at hpktr
      obtain ⟨p', hp'mem, hp'k⟩ := List.mem_map.mp hpktr
      have hp'sorted : p' ∈ List.insertionSort metaLe
          (removeExpired now (storeInsert now s k recipes)).metadata :=
        List.take_subset _ _ hp'mem
      have hpsorted : p ∈ List.insertionSort metaLe
          (removeExpired now (storeInsert now s k recipes)).metadata :=
        (List.perm_insertionSort metaLe _).mem_iff.mpr hp
      have hsortednd : ((List.insertionSort metaLe
          (removeExpired now (storeInsert now s k recipes)).metadata).map Prod.fst).Nodup :=
        (((List.perm_insertionSort metaLe _).map Prod.fst).nodup_iff).mpr hnd2
      have hpeq : p' = p :=
        eq_of_mem_of_nodup_keys _ hsortednd p' p hp'sorted hpsorted hp'k
      have hqsorted : q ∈ List.insertionSort metaLe
          (removeExpired now (storeInsert now s k recipes)).metadata :=
        (List.perm_insertionSort metaLe _).mem_iff.mpr hqmem.1
      have hqsplit := List.take_append_drop
        (((List.insertionSort metaLe
            (removeExpired now (storeInsert now s k recipes)).metadata).map Prod.fst).length
          - maxCacheSize)
        (List.insertionSort metaLe (removeExpired now (storeInsert now s k recipes)).metadata)
      rcases List.mem_append.mp (hqsplit.symm ▸ hqsorted) with hqtake | hqdrop
      · exfalso
        have hqin : q.1 ∈ keysToRemoveOf
            (removeExpired now (storeInsert now s k recipes)).metadata := by
          rw [hktr_eq]
          exact List.mem_map.mpr ⟨q, hqtake, rfl⟩
        have hbad := hqmem.2
        rw [(strContains_iff_mem _ _).mpr hqin] at hbad
        exact absurd hbad (by simp)
      · have hpw : List.Pairwise metaLe (List.insertionSort metaLe
            (removeExpired now (storeInsert now s k recipes)).metadata) :=
          List.sorted_insertionSort metaLe _
        rw [← hqsplit] at hpw
        have hle := (List.pairwise_append.mp hpw).2.2 p' hp'mem q hqdrop
        rw [hpeq] at hle
        exact hle
  · -- within the size bound: nothing further is evicted
    rw [enforceSizeBound, if_neg hbig]
    refine ⟨hs2ck, hs2mk, hnoexp, not_lt.mp hbig, ?_⟩
    intro p hp hpnot q _
    exact absurd (List.mem_map.mpr ⟨p, hp, rfl⟩) hpnot

/-- A one-entry cache state written at time 10, about to receive a second
entry at time 20. -/
def witnessStoreState : CacheState :=
  { cache := [("a", [recipeTwoUsed])],
    metadata := [("a", { timestamp := 10, last_accessed := 10, access_count := 1,
                         recipe_count := 1 })] }

/-- Witness for `store_cached_recipes_spec` at a concrete small state. -/
theorem store_cached_recipes_spec_witness :
    dictGet (storeCachedRecipes 20 witnessStoreState "b" [recipeNoUsed]).cache "b"
      = some [recipeNoUsed] ∧
    dictGet (storeCachedRecipes 20 witnessStoreState "b" [recipeNoUsed]).metadata "b" =
      some { timestamp := 20, last_accessed := 20, access_count := 1,
             recipe_count := [recipeNoUsed].length } ∧
    (∀ p ∈ (storeCachedRecipes 20 witnessStoreState "b" [recipeNoUsed]).metadata,
      (20 : ℚ) - p.2.timestamp ≤ cacheDuration) ∧
    (storeCachedRecipes 20 witnessStoreState "b" [recipeNoUsed]).cache.length ≤ maxCacheSize ∧
    (∀ p ∈ (removeExpired 20 (storeInsert 20 witnessStoreState "b" [recipeNoUsed])).metadata,
      p.1 ∉ (storeCachedRecipes 20 witnessStoreState "b" [recipeNoUsed]).metadata.map Prod.fst →
      ∀ q ∈ (storeCachedRecipes 20 witnessStoreState "b" [recipeNoUsed]).metadata,
        p.2.timestamp ≤ q.2.timestamp) :=
  store_cached_recipes_spec 20 witnessStoreState "b" [recipeNoUsed] rfl (by decide)
    (by
      intro p hp
      have hpe : p = ("a", ⟨10, 10, 1, 1⟩) := by simpa [witnessStoreState] using hp
      rw [hpe]
      norm_num)
    (by decide)

/-- `recipeTwoUsed` with one used ingredient instead of two. -/
def recipeOneUsed : Recipe := { recipeTwoUsed with usedIngredients := [⟨"Egg"⟩] }

/-- `recipeTwoUsed` with an additional missed ingredient. -/
def recipeMoreMissed : Recipe :=
  { recipeTwoUsed with missedIngredients := [⟨"salt"⟩, ⟨"pepper"⟩] }

/-- Witness for `base_score_monotone` at concrete recipes. -/
theorem base_score_monotone_witness :
    calculateBaseScore recipeOneUsed ["egg", "spinach"] ≤
      calculateBaseScore recipeTwoUsed ["egg", "spinach"] ∧
    calculateBaseScore recipeMoreMissed ["egg", "spinach"] ≤
      calculateBaseScore recipeTwoUsed ["egg", "spinach"] :=
  ⟨base_score_monotone.1 recipeOneUsed recipeTwoUsed ["egg", "spinach"]
      rfl rfl rfl (by decide),
   base_score_monotone.2 recipeTwoUsed recipeMoreMissed ["egg", "spinach"]
      rfl rfl rfl (by decide)⟩

/-! ## Lexical normalizer (src/nlp_simple.py)

The module text contains two full definitions of `normalize_ingredients` and
of `_clean_ingredient`; Python binds the later definition of each name, so
the effective pipeline is `normalize_ingredients` from lines 119-149 calling
`_clean_ingredient` from lines 233-264 (the synonym-table cleaner at lines
151-190 is shadowed dead code, embedded below as `cleanIngredientV1`).

`fuzzywuzzy.fuzz.ratio(a, b)` is `int(round(100 * SequenceMatcher(None, a,
b).ratio()))`, with `SequenceMatcher.ratio() = 2*M/T` where `T` is the total
length and `M` the total size of the matching blocks.  For strings this
short (autojunk needs length ≥ 200) there is no junk, and `difflib`'s
documented `find_longest_match` semantics is: among all maximal matching
blocks, the one starting earliest in `a`, then earliest in `b`.  That is
embedded directly below; the rounding is Python's round-half-even, computed
exactly on integers. -/

/-- `COMMON_INGREDIENTS` (src/nlp_simple.py lines 14-23).  The source is a
Python `set`, whose iteration order is unspecified; it is kept here as a
list in the literal's order, and the theorems below avoid any dependence on
the iteration order (the counterexample input has a unique best match). -/
def COMMON_INGREDIENTS : List String :=
  ["chicken", "beef", "pork", "fish", "salmon", "tuna", "shrimp",
   "rice", "pasta", "bread", "flour", "sugar", "salt", "pepper",
   "onion", "garlic", "tomato", "potato", "carrot", "celery",
   "milk", "butter", "cheese", "egg", "oil", "vinegar",
   "lettuce", "spinach", "broccoli", "mushroom", "bell pepper",
   "apple", "banana", "lemon", "lime", "orange", "strawberry",
   "beans", "corn", "peas", "cucumber", "avocado", "herbs",
   "basil", "oregano", "thyme", "rosemary", "parsley", "cilantro"]

/-- `measurement_words` of the effective `_clean_ingredient`
(src/nlp_simple.py lines 242-249). -/
def measurementWords : List String :=
  ["cup", "cups", "tbsp", "tsp", "oz", "lb", "lbs", "pound", "pounds",
   "gram", "grams", "kg", "ml", "liter", "liters", "slice", "slices",
   "piece", "pieces", "bunch", "clove", "cloves", "head", "can", "cans",
   "bottle", "jar", "box", "bag", "package", "fresh", "dried", "frozen",
   "chopped", "diced", "sliced", "minced", "ground", "whole", "large",
   "small", "medium", "organic", "raw", "cooked"]

/-- A regex `\w` character on the ASCII inputs handled here:
letters, digits or underscore. -/
def isWordChar (c : Char) : Bool := c.isAlphanum || c = '_'

/-- The tail of a number match: `[\./\d]*` after the leading `\d+`. -/
def dropNumTail : List Char → List Char
  | [] => []
  | c :: cs => if c.isDigit || c = '.' || c = '/' then dropNumTail cs else c :: cs

/-- Auxiliary: `dropNumTail` never lengthens the list. -/
theorem dropNumTail_length_le (l : List Char) : (dropNumTail l).length ≤ l.length := by
  induction l with
  | nil => simp [dropNumTail]
  | cons c cs ih =>
    rw [dropNumTail]
    by_cases h : (c.isDigit || c = '.' || c = '/') = true
    · rw [if_pos h]
      exact Nat.le_succ_of_le ih
    · rw [if_neg h]

/-- Fuel-indexed worker for `stripNumbers`: every recursive call strictly
shortens the list, so fuel `l.length + 1` is never exhausted (the structural
recursion on the fuel keeps the definition kernel-evaluable). -/
def stripNumbersFuel : ℕ → List Char → List Char
  | 0, l => l
  | _ + 1, [] => []
  | fuel + 1, c :: cs =>
    if c.isDigit then stripNumbersFuel fuel (dropNumTail cs)
    else c :: stripNumbersFuel fuel cs

/-- `re.sub(r'\d+[\./\d]*', '', ingredient)` (src/nlp_simple.py line 252):
remove every digit run together with the dots, slashes and digits directly
following it. -/
def stripNumbers (l : List Char) : List Char := stripNumbersFuel (l.length + 1) l

/-- One step of `re.sub(r'\b(?:word1|...)\b', '', ...)` (src/nlp_simple.py
line 253): a maximal `\w`-run equal to a measurement word is removed (the
word-boundary anchors and the all-letter alternation make whole runs the
only possible matches); all other characters pass through. -/
def removeMeasurementWordsFuel : ℕ → List Char → List Char
  | 0, l => l
  | _ + 1, [] => []
  | fuel + 1, c :: cs =>
    if isWordChar c then
      (if measurementWords.contains (String.mk ((c :: cs).takeWhile isWordChar))
       then [] else (c :: cs).takeWhile isWordChar)
        ++ removeMeasurementWordsFuel fuel ((c :: cs).dropWhile isWordChar)
    else c :: removeMeasurementWordsFuel fuel cs

/-- The run-based view of the word-boundary substitution (see the doc
comment of the fuel worker above for the fuel convention). -/
def removeMeasurementWords (l : List Char) : List Char :=
  removeMeasurementWordsFuel (l.length + 1) l

/-- `re.sub(r'\s+', ' ', ...)`: collapse every whitespace run to a single
space. -/
def squeezeSpacesFuel : ℕ → List Char → List Char
  | 0, l => l
  | _ + 1, [] => []
  | fuel + 1, c :: cs =>
    if isPySpace c then ' ' :: squeezeSpacesFuel fuel (cs.dropWhile isPySpace)
    else c :: squeezeSpacesFuel fuel cs

/-- Collapse whitespace runs (fuel convention as above). -/
def squeezeSpaces (l : List Char) : List Char := squeezeSpacesFuel (l.length + 1) l

/-- Length of the longest common prefix of two character lists. -/
def commonPrefixLen : List Char → List Char → ℕ
  | x :: xs, y :: ys => if x = y then commonPrefixLen xs ys + 1 else 0
  | _, _ => 0

/-- `difflib.SequenceMatcher.find_longest_match` over full ranges, with no
junk (documented semantics: among all maximal matching blocks, the one
starting earliest in `a`, then earliest in `b`): scanning `(i, j)` in
lexicographic order and keeping strict improvements realizes exactly that
tie-break. -/
def bestMatch (a b : List Char) : ℕ × ℕ × ℕ :=
  (List.range (a.length + 1)).foldl
    (fun acc i =>
      (List.range (b.length + 1)).foldl
        (fun acc2 j =>
          let k := commonPrefixLen (a.drop i) (b.drop j)
          if acc2.2.2 < k then (i, j, k) else acc2)
        acc)
    (0, 0, 0)

/-- `SequenceMatcher.get_matching_blocks` total size `M`: find the longest
match, then recurse left and right of it.  The fuel argument bounds the
recursion depth; every recursive call strictly shortens the first list
(the match has positive length and lies inside it), so fuel
`a.length + 1` is never exhausted. -/
def matchingTotalFuel : ℕ → List Char → List Char → ℕ
  | 0, _, _ => 0
  | fuel + 1, a, b =>
    let m := bestMatch a b
    if m.2.2 = 0 then 0
    else
      matchingTotalFuel fuel (a.take m.1) (b.take m.2.1) + m.2.2 +
        matchingTotalFuel fuel (a.drop (m.1 + m.2.2)) (b.drop (m.2.1 + m.2.2))

/-- Total matching-block size `M` of `SequenceMatcher(None, a, b)`. -/
def matchingTotal (a b : List Char) : ℕ := matchingTotalFuel (a.length + 1) a b

/-- Python `int(round(a / T))` for nonnegative `a`, `T > 0`: round half to
even, computed exactly on integers. -/
def pyRoundDiv (a T : ℕ) : ℕ :=
  let q := a / T
  let r := a % T
  if 2 * r < T then q
  else if T < 2 * r then q + 1
  else if q % 2 = 0 then q else q + 1

/-- `fuzzywuzzy.fuzz.ratio`: `int(round(100 * 2*M/T))` with
`T = len(a) + len(b)` (and 100 for two empty strings, where
`SequenceMatcher.ratio()` returns 1.0). -/
def fuzzScore (s1 s2 : String) : ℕ :=
  let a := s1.data
  let b := s2.data
  let T := a.length + b.length
  if T = 0 then 100 else pyRoundDiv (200 * matchingTotal a b) T

/-- The fuzzy-matching loop of `_find_best_ingredient_match`
(src/nlp_simple.py lines 276-283): keep the first strict improvement whose
score is at least 70. -/
def bestFuzzyMatch (ingredient : String) : String × ℕ :=
  COMMON_INGREDIENTS.foldl
    (fun acc c =>
      let score := fuzzScore ingredient c
      if acc.2 < score ∧ 70 ≤ score then (c, score) else acc)
    ("", 0)

/-- Python `str.split()` into maximal non-whitespace runs. -/
def wordsOfFuel : ℕ → List Char → List (List Char)
  | 0, _ => []
  | _ + 1, [] => []
  | fuel + 1, c :: cs =>
    if isPySpace c then wordsOfFuel fuel cs
    else
      (c :: cs).takeWhile (fun d => !(isPySpace d)) ::
        wordsOfFuel fuel ((c :: cs).dropWhile (fun d => !(isPySpace d)))

/-- Python `str.split()` into maximal non-whitespace runs (fuel convention
as above). -/
def wordsOf (l : List Char) : List (List Char) := wordsOfFuel (l.length + 1) l

/-- `_find_best_ingredient_match` (src/nlp_simple.py lines 266-291): exact
set membership first; then the fuzzy loop; then the per-word partial match,
whose `return word` takes precedence over the fuzzy result; otherwise the
fuzzy best if any, else the input itself. -/
def findBestIngredientMatch (ingredient : String) : String :=
  if ingredient = "" then ""
  else if COMMON_INGREDIENTS.contains ingredient then ingredient
  else
    let best := bestFuzzyMatch ingredient
    match (wordsOf ingredient.data).find?
        (fun w => COMMON_INGREDIENTS.contains (String.mk w)) with
    | some w => String.mk w
    | none => if best.1 ≠ "" then best.1 else ingredient

/-- The effective `_clean_ingredient` (the second definition,
src/nlp_simple.py lines 233-264, which shadows the first): lowercase and
strip, remove numbers, measurement words and punctuation, collapse
whitespace, then resolve against `COMMON_INGREDIENTS`. -/
def cleanIngredient (ingredient : String) : String :=
  if ingredient = "" then ""
  else
    let l := (pyStrip (pyLower ingredient)).data
    let l := stripNumbers l
    let l := removeMeasurementWords l
    let l := l.filter (fun c => isWordChar c || isPySpace c)
    let s := String.mk (trimChars (squeezeSpaces l))
    if s ≠ "" then
      let best := findBestIngredientMatch s
      if best ≠ "" then best else s
    else ""

/-- A delimiter of `re.split(r'[,;\n\r]+', ...)`. -/
def isDelim (c : Char) : Bool := c = ',' || c = ';' || c = '\n' || c = '\r'

/-- `re.split(r'[,;\n\r]+', text)`: split on maximal delimiter runs
(consecutive delimiters produce one split; leading/trailing delimiters
produce empty pieces, discarded later by the length check). -/
def splitRunsFuel : ℕ → List Char → List (List Char)
  | 0, l => [l]
  | fuel + 1, l =>
    match l.dropWhile (fun c => !(isDelim c)) with
    | [] => [l.takeWhile (fun c => !(isDelim c))]
    | _ :: rest2 =>
      l.takeWhile (fun c => !(isDelim c)) :: splitRunsFuel fuel (rest2.dropWhile isDelim)

/-- Split on maximal delimiter runs (fuel convention as above). -/
def splitRuns (l : List Char) : List (List Char) := splitRunsFuel (l.length + 1) l

/-- The order-preserving deduplication loop of `normalize_ingredients`
(src/nlp_simple.py lines 142-147): keep the first occurrence of each item. -/
def dedupFirstFuel : ℕ → List String → List String
  | 0, l => l
  | _ + 1, [] => []
  | fuel + 1, x :: xs => x :: dedupFirstFuel fuel (xs.filter (fun y => !(y == x)))

/-- First-occurrence deduplication (fuel convention as above). -/
def dedupFirst (l : List String) : List String := dedupFirstFuel (l.length + 1) l

/-- The effective `normalize_ingredients` (the second definition,
src/nlp_simple.py lines 119-149): lowercase, split on delimiters, strip and
clean each piece, keep results longer than one character, deduplicate
preserving first-seen order. -/
def normalize_ingredients (ingredient_text : String) : List String :=
  if pyStrip ingredient_text = "" then []
  else
    let pieces := splitRuns (pyLower ingredient_text).data
    let normalized := pieces.filterMap (fun piece =>
      let cleaned := cleanIngredient (pyStrip (String.mk piece))
      if cleaned ≠ "" ∧ 1 < cleaned.length then some cleaned else none)
    dedupFirst normalized

/-- `INGREDIENT_MAPPINGS` (src/nlp_simple.py lines 36-104): the exact
synonym table of the shadowed first `_clean_ingredient`, in source order. -/
def INGREDIENT_MAPPINGS : List (String × String) :=
  [("tomatoes", "tomato"), ("potatoes", "potato"), ("onions", "onion"),
   ("carrots", "carrot"), ("peppers", "pepper"), ("mushrooms", "mushroom"),
   ("eggs", "egg"), ("apples", "apple"), ("bananas", "banana"),
   ("lemons", "lemon"), ("limes", "lime"), ("oranges", "orange"),
   ("strawberries", "strawberry"), ("blueberries", "blueberry"),
   ("beans", "bean"), ("peas", "pea"),
   ("chicken breast", "chicken"), ("chicken thigh", "chicken"),
   ("ground beef", "beef"), ("beef steak", "beef"), ("pork chop", "pork"),
   ("salmon fillet", "salmon"), ("tuna steak", "tuna"),
   ("fresh basil", "basil"), ("dried basil", "basil"),
   ("fresh parsley", "parsley"), ("dried parsley", "parsley"),
   ("fresh cilantro", "cilantro"), ("ground cinnamon", "cinnamon"),
   ("black pepper", "pepper"), ("sea salt", "salt"), ("kosher salt", "salt"),
   ("whole milk", "milk"), ("skim milk", "milk"), ("2% milk", "milk"),
   ("heavy cream", "cream"), ("sour cream", "cream"),
   ("greek yogurt", "yogurt"), ("plain yogurt", "yogurt"),
   ("cheddar cheese", "cheese"), ("mozzarella cheese", "cheese"),
   ("brown rice", "rice"), ("white rice", "rice"), ("jasmine rice", "rice"),
   ("whole wheat pasta", "pasta"), ("spaghetti", "pasta"), ("penne", "pasta"),
   ("macaroni", "pasta"), ("bread crumbs", "breadcrumbs"),
   ("panko", "breadcrumbs"),
   ("olive oil", "oil"), ("vegetable oil", "oil"), ("canola oil", "oil"),
   ("balsamic vinegar", "vinegar"), ("white vinegar", "vinegar"),
   ("apple cider vinegar", "vinegar")]

/-- `STOP_WORDS` (src/nlp_simple.py lines 107-117), used by the shadowed
first `_clean_ingredient`. -/
def STOP_WORDS : List String :=
  ["fresh", "dried", "chopped", "diced", "sliced", "minced", "grated",
   "ground", "whole", "large", "small", "medium", "organic", "free-range",
   "extra", "virgin", "pure", "raw", "cooked", "frozen", "canned",
   "cup", "cups", "tablespoon", "tablespoons", "tbsp", "teaspoon",
   "teaspoons", "tsp", "pound", "pounds", "lb", "lbs", "ounce", "ounces",
   "oz", "gram", "grams", "g", "kilogram", "kg", "piece", "pieces",
   "clove", "cloves", "bunch", "head", "can", "jar", "bottle", "pack",
   "package", "bag", "box", "container", "of", "for", "to", "and", "or",
   "a", "an", "the", "some", "any", "1", "2", "3", "4", "5", "6", "7",
   "8", "9", "0"]

/-- `re.sub(r'\([^)]*\)', '', ...)` (src/nlp_simple.py line 157): remove a
`(`, the following run of non-`)` characters, and the closing `)`; a `(`
with no closing `)` anywhere after it stays. -/
def removeParensFuel : ℕ → List Char → List Char
  | 0, l => l
  | _ + 1, [] => []
  | fuel + 1, c :: cs =>
    if c = '(' ∧ cs.contains ')' then
      removeParensFuel fuel ((cs.dropWhile (fun d => !(d = ')'))).drop 1)
    else c :: removeParensFuel fuel cs

/-- Remove parenthesized asides (fuel convention as above). -/
def removeParens (l : List Char) : List Char := removeParensFuel (l.length + 1) l

/-- Does a character list end with the given character
(Python `str.endswith` for a single character)? -/
def endsWithChar (l : List Char) (c : Char) : Bool :=
  match l.reverse with
  | [] => false
  | x :: _ => x = c

/-- The SHADOWED first `_clean_ingredient` (src/nlp_simple.py lines
151-190), the cleaner the specification describes: strip parentheticals and
leading quantities, blank out punctuation, consult the exact synonym table,
remove stop words, retry the table, then apply naive plural folding (strip
a trailing `s` when longer than 3) with one more table lookup.  At runtime
this definition is dead: the second `_clean_ingredient` (lines 233-264,
`cleanIngredient` above) shadows it. -/
def cleanIngredientV1 (ingredient : String) : String :=
  if ingredient = "" then ""
  else
    let l := removeParens ingredient.data
    let l := l.dropWhile (fun c => c.isDigit || isPySpace c || c = '/' || c = '.' || c = '-')
    let l := l.map (fun c => if isWordChar c || isPySpace c || c = '-' then c else ' ')
    let s := String.mk (trimChars (squeezeSpaces l))
    match dictGet INGREDIENT_MAPPINGS s with
    | some v => v
    | none =>
      let cleanedWords := (wordsOf s.data).map String.mk |>.filter
        (fun w => !(STOP_WORDS.contains w) && 1 < w.length)
      if cleanedWords = [] then ""
      else
        let cleaned := String.intercalate " " cleanedWords
        match dictGet INGREDIENT_MAPPINGS cleaned with
        | some v => v
        | none =>
          if endsWithChar cleaned.data 's' ∧ 3 < cleaned.length then
            let singular := String.mk (cleaned.data.take (cleaned.data.length - 1))
            match dictGet INGREDIENT_MAPPINGS singular with
            | some v => v
            | none => singular
          else cleaned

set_option maxRecDepth 100000

/-- C7: evaluation of the code at the failing input.  The effective
`_clean_ingredient` (the second definition) never consults the synonym
table, so `normalize_ingredients("spaghetti")` yields `["spaghetti"]`, while
the table maps `"spaghetti"` to `"pasta"` and the shadowed first
`_clean_ingredient` — the one the specification describes — returns
`"pasta"`. -/
theorem normalize_synonym_table_dead_code :
    normalize_ingredients "spaghetti" = ["spaghetti"] ∧
    dictGet INGREDIENT_MAPPINGS "spaghetti" = some "pasta" ∧
    cleanIngredientV1 "spaghetti" = "pasta" := by
  refine ⟨by decide, by decide, by decide⟩

/-- C8 as stated is false: the fuzzy fallback of
`_find_best_ingredient_match` silently replaces `"onoin"` with `"onion"`
although their similarity is 80, below the claimed ≈85 threshold — the
source accepts anything at or above 70. -/
theorem fuzzy_threshold_counterexample :
    findBestIngredientMatch "onoin" = "onion" ∧
    "onion" ∈ COMMON_INGREDIENTS ∧
    fuzzScore "onoin" "onion" = 80 ∧
    ¬(85 ≤ fuzzScore "onoin" "onion") := by
  refine ⟨by decide, by decide, by decide, by decide⟩

/-- Auxiliary: a fold invariant principle. -/
theorem foldl_invariant {α β : Type} (P : β → Prop) (f : β → α → β) :
    ∀ (l : List α) (init : β), P init →
      (∀ acc x, x ∈ l → P acc → P (f acc x)) → P (l.foldl f init)
  | [], _, h0, _ => h0
  | a :: l, init, h0, hstep =>
    foldl_invariant P f l (f init a)
      (hstep init a (List.mem_cons_self _ _) h0)
      (fun acc x hx hacc => hstep acc x (List.mem_cons_of_mem _ hx) hacc)

/-- C8 (amended): the fuzzy-matching fallback replaces a phrase with a known
ingredient only when their similarity score is at least the fixed threshold
of 70 out of 100 (not ≈85); a candidate scoring below 70 is never accepted
by the loop. -/
theorem fuzzy_fallback_threshold (ingredient : String)
    (h : (bestFuzzyMatch ingredient).1 ≠ "") :
    (bestFuzzyMatch ingredient).1 ∈ COMMON_INGREDIENTS ∧
    70 ≤ fuzzScore ingredient (bestFuzzyMatch ingredient).1 := by
  have hinv : bestFuzzyMatch ingredient = ("", 0) ∨
      ((bestFuzzyMatch ingredient).1 ∈ COMMON_INGREDIENTS ∧
       (bestFuzzyMatch ingredient).2 = fuzzScore ingredient (bestFuzzyMatch ingredient).1 ∧
       70 ≤ (bestFuzzyMatch ingredient).2) := by
    refine foldl_invariant
      (fun acc : String × ℕ => acc = ("", 0) ∨
        (acc.1 ∈ COMMON_INGREDIENTS ∧ acc.2 = fuzzScore ingredient acc.1 ∧ 70 ≤ acc.2))
      (fun acc c =>
        let score := fuzzScore ingredient c
        if acc.2 < score ∧ 70 ≤ score then (c, score) else acc)
      COMMON_INGREDIENTS ("", 0) (Or.inl rfl) ?_
    intro acc x hx hacc
    show (fun acc2 : String × ℕ => acc2 = ("", 0) ∨
        (acc2.1 ∈ COMMON_INGREDIENTS ∧ acc2.2 = fuzzScore ingredient acc2.1 ∧ 70 ≤ acc2.2))
      (if acc.2 < fuzzScore ingredient x ∧ 70 ≤ fuzzScore ingredient x
       then (x, fuzzScore ingredient x) else acc)
    by_cases hcond : acc.2 < fuzzScore ingredient x ∧ 70 ≤ fuzzScore ingredient x
    · rw [if_pos hcond]
      exact Or.inr ⟨hx, rfl, hcond.2⟩
    · rw [if_neg hcond]
      exact hacc
  rcases hinv with he | ⟨h1, h2, h3⟩
  · exact absurd (by rw [he]) h
  · exact ⟨h1, h2 ▸ h3⟩

/-- Witness for `fuzzy_fallback_threshold` at the typo input `"onoin"`. -/
theorem fuzzy_fallback_threshold_witness :
    (bestFuzzyMatch "onoin").1 ∈ COMMON_INGREDIENTS ∧
    70 ≤ fuzzScore "onoin" (bestFuzzyMatch "onoin").1 :=
  fuzzy_fallback_threshold "onoin" (by decide)

end Fridge
